import Mathlib

/-!
Verification of the search engine of the rl-rubiks repository
(src/src/rubiks/solving/search.py and src/librubiks/train.py).

The cube itself is an external collaborator of the engine: the code only
uses `Cube.rotate` / `Cube.multi_rotate`, `Cube.is_solved` /
`Cube.multi_is_solved`, `Cube.rev_action` / `Cube.rev_actions` and the
constant `Cube.action_dim`.  We therefore model it as an abstract
transition model `TransModel` with `k` actions, exactly the interface the
search code consumes.  The neural network is likewise abstracted as a
deterministic function returning a (post-softmax) policy vector and a
scalar value for a state.

Wall-clock checks (`self.tt.tock() < time_limit`) are modelled by fuel
parameters, and `np.random.randint(Cube.action_dim)` by an external
stream `rng : ℕ → Fin k` consumed with a counter, so every function below
is a pure, computable translation of the source.
-/

namespace RLRubiks

/-- The transition-model interface the search engine consumes:
`rotate` is `Cube.rotate` specialised to an action index, `isSolved` is
`Cube.is_solved`, and `rev` is `Cube.rev_action`. -/
structure TransModel (S : Type) (k : ℕ) where
  rotate : S → Fin k → S
  isSolved : S → Bool
  rev : Fin k → Fin k

/-- Laws the Rubik's cube transition model satisfies: reversing an action
twice is the identity, and applying an action then its reverse restores
the state. -/
structure TransModel.Lawful {S : Type} {k : ℕ} (tm : TransModel S k) : Prop where
  rev_rev : ∀ a, tm.rev (tm.rev a) = a
  rotate_rev : ∀ s a, tm.rotate (tm.rotate s a) (tm.rev a) = s

theorem TransModel.Lawful.rotate_rev' {S : Type} {k : ℕ} {tm : TransModel S k}
    (hL : tm.Lawful) (s : S) (a : Fin k) :
    tm.rotate (tm.rotate s (tm.rev a)) a = s := by
  have h := hL.rotate_rev s (tm.rev a)
  rwa [hL.rev_rev] at h

theorem TransModel.Lawful.rotate_inj {S : Type} {k : ℕ} {tm : TransModel S k}
    (hL : tm.Lawful) {s s' : S} {a : Fin k}
    (h : tm.rotate s a = tm.rotate s' a) : s = s' := by
  have h1 := hL.rotate_rev s a
  have h2 := hL.rotate_rev s' a
  rw [h] at h1
  rw [h2] at h1
  exact h1.symm

theorem TransModel.Lawful.rev_inj {S : Type} {k : ℕ} {tm : TransModel S k}
    (hL : tm.Lawful) {a b : Fin k} (h : tm.rev a = tm.rev b) : a = b := by
  have := congrArg tm.rev h
  rwa [hL.rev_rev, hL.rev_rev] at this

/-- Applying a sequence of actions in order from a state, i.e. the
composition of `Cube.rotate` along an action queue. -/
def applyPath {S : Type} {k : ℕ} (tm : TransModel S k) (s : S) (p : List (Fin k)) : S :=
  p.foldl tm.rotate s

theorem applyPath_nil {S : Type} {k : ℕ} (tm : TransModel S k) (s : S) :
    applyPath tm s [] = s := rfl

theorem applyPath_append {S : Type} {k : ℕ} (tm : TransModel S k) (s : S)
    (p : List (Fin k)) (a : Fin k) :
    applyPath tm s (p ++ [a]) = tm.rotate (applyPath tm s p) a := by
  simp [applyPath, List.foldl_append]

/-- The per-search store of the `MCTS` class: `indices` (the dict from a
state to its stack index, modelled as `idx` with 0 meaning absent),
`states` (`stateOf`), `neighbors`, `leaves`, and the statistic arrays
`P`, `V`, `N`, `W`, `L`.  All arrays are modelled as total functions on
handles; index 0 is the unused sentinel, and `nStates = len(indices)`.
Capacity growth (`increase_stack_size`) only reallocates storage and is
invisible at this level. -/
structure MState (S : Type) (k : ℕ) where
  nStates : ℕ
  stateOf : ℕ → S
  idx : S → ℕ
  neighbors : ℕ → Fin k → ℕ
  leaves : ℕ → Bool
  P : ℕ → Fin k → ℚ
  V : ℕ → ℚ
  N : ℕ → Fin k → ℕ
  W : ℕ → Fin k → ℚ
  L : ℕ → Fin k → ℚ

variable {S : Type} {k : ℕ}

/-- A single write `self.neighbors[h, a] = v`. -/
def setNeigh (g : MState S k) (h : ℕ) (a : Fin k) (v : ℕ) : MState S k :=
  { g with neighbors := fun h' a' => if h' = h ∧ a' = a then v else g.neighbors h' a' }

/-- A single write `self.leaves[h] = b`. -/
def setLeaf (g : MState S k) (h : ℕ) (b : Bool) : MState S k :=
  { g with leaves := fun h' => if h' = h then b else g.leaves h' }

/-- A single write `self.W[h, a] = v`. -/
def setW (g : MState S k) (h : ℕ) (a : Fin k) (v : ℚ) : MState S k :=
  { g with W := fun h' a' => if h' = h ∧ a' = a then v else g.W h' a' }

/-- The writes `self.P[h] = p; self.V[h] = v` for one handle. -/
def setPV (g : MState S k) (h : ℕ) (p : Fin k → ℚ) (v : ℚ) : MState S k :=
  { g with P := fun h' => if h' = h then p else g.P h',
           V := fun h' => if h' = h then v else g.V h' }

/-- The updates `self.N[h, a] += 1; self.L[h, a] += nu` of `find_leaf`. -/
def bumpNL (g : MState S k) (h : ℕ) (a : Fin k) (nu : ℚ) : MState S k :=
  { g with N := fun h' a' => if h' = h ∧ a' = a then g.N h' a' + 1 else g.N h' a',
           L := fun h' a' => if h' = h ∧ a' = a then g.L h' a' + nu else g.L h' a' }

/-- Registering one new state: the dict update `self.indices[s] = n+1`
together with `self.states[n+1] = s`, where `n = len(self.indices)`. -/
def registerState [DecidableEq S] (g : MState S k) (s : S) : MState S k :=
  { g with nStates := g.nStates + 1,
           idx := fun s' => if s' = s then g.nStates + 1 else g.idx s',
           stateOf := fun h => if h = g.nStates + 1 then s else g.stateOf h }

/-- Applying a list of neighbor writes in order; numpy fancy-index
assignment with duplicate indices keeps the last write, which sequential
application reproduces. -/
def applyNW (g : MState S k) (ws : List (ℕ × Fin k × ℕ)) : MState S k :=
  ws.foldl (fun g' w => setNeigh g' w.1 w.2.1 w.2.2) g

/-- Whether every neighbor slot of a handle is non-sentinel:
`self.neighbors[h].all()`. -/
def allNeighSet (g : MState S k) (h : ℕ) : Bool :=
  (List.finRange k).all fun a => g.neighbors h a != 0

/-- The flattened `(leaf, action)` batch: `np.repeat(leaves_idcs, k)`
paired with `np.tile(np.arange(k), len(leaves_idcs))`; element `i` is
`(leaves_idcs[i // k], i % k)`, exactly how the source recovers
`leaf_idx` and `action_idx` from a flat index. -/
def tripList [NeZero k] (lvs : List ℕ) : List (ℕ × Fin k) :=
  (List.range (lvs.length * k)).map fun i =>
    (lvs.getD (i / k) 0, ⟨i % k, Nat.mod_lt i (NeZero.pos k)⟩)

/-- The flattened successor batch
`Cube.multi_rotate(np.repeat(states, k, axis=0), *Cube.iter_actions(len(states)))`. -/
def subList [NeZero k] (tm : TransModel S k) (g : MState S k) (lvs : List ℕ) : List S :=
  (tripList lvs).map fun p => tm.rotate (g.stateOf p.1) p.2

/-- The last occurrences of the substates that are **not** yet in
`self.indices` (`last_occurences & unseen_substates` applied to the
batch), in batch order — `substates[last_unseen]`. -/
def newUnseen [DecidableEq S] (idxf : S → ℕ) : List S → List S
  | [] => []
  | s :: rest => if s ∈ rest ∨ idxf s ≠ 0 then newUnseen idxf rest else s :: newUnseen idxf rest

/-- The last occurrences of the substates that **are** already in
`self.indices` (`last_occurences & seen_substates`), in batch order —
`substates[last_seen]`. -/
def lastSeen [DecidableEq S] (idxf : S → ℕ) : List S → List S
  | [] => []
  | s :: rest => if s ∈ rest ∨ idxf s = 0 then lastSeen idxf rest else s :: lastSeen idxf rest

/-- Maximum of a rational list, `np.ndarray.max()`; the source only calls
it on the nonempty neighbor rows. -/
def qMax : List ℚ → ℚ
  | [] => 0
  | x :: xs => xs.foldl max x

/-- `MCTS._update_neighbors(state_idx)`: wire `state_idx` to every
substate already present in `self.indices` (both directions), then the
two leaf writes of lines 360–361 of search.py — note that the second one
assigns `leaves = neighbors.all(axis=1)` as written in the source. -/
def updateNeighborsB [DecidableEq S] [NeZero k] (tm : TransModel S k)
    (g : MState S k) (h : ℕ) : MState S k :=
  let acts := (List.finRange k).filter fun a => g.idx (tm.rotate (g.stateOf h) a) ≠ 0
  let g1 := applyNW g (acts.map fun a => (h, a, g.idx (tm.rotate (g.stateOf h) a)))
  let g2 := applyNW g1 (acts.map fun a => (g.idx (tm.rotate (g.stateOf h) a), tm.rev a, h))
  let g3 := setLeaf g2 h false
  let targets := h :: acts.map fun a => g.idx (tm.rotate (g.stateOf h) a)
  targets.foldl (fun g' x => setLeaf g' x (allNeighSet g3 x)) g3

/-- The mutation part of `MCTS.expand_leaves` (lines 283–342 of
search.py), shared by the solution and no-solution cases since the
source does **not** return early on a solution: `g` is the store the
successor batch was generated from, `g1` the store after the possible
`_update_neighbors` call of the solution scan.  It registers the unseen
last occurrences of the batch, wires forward then reverse edges
(`self.neighbors[repeated_leaves_idcs, actions_taken] = substate_idcs`
and its reverse), writes the oracle policy/value of the new states,
clears the leaf flags of the batch and of the completed old states, and
backs up the max sibling value into `W`. -/
def expandBody [DecidableEq S] [NeZero k] (tm : TransModel S k)
    (net : S → (Fin k → ℚ) × ℚ) (g g1 : MState S k) (lvs : List ℕ) :
    MState S k :=
  let trip : List (ℕ × Fin k) := tripList lvs
  let sub := subList tm g lvs
  let newSts := newUnseen g1.idx sub
  let g2 := newSts.foldl registerState g1
  let g3 := applyNW g2 (trip.map fun p => (p.1, p.2, g2.idx (tm.rotate (g.stateOf p.1) p.2)))
  let g4 := applyNW g3 (trip.map fun p => (g2.idx (tm.rotate (g.stateOf p.1) p.2), tm.rev p.2, p.1))
  let g5 := newSts.foldl (fun g' s => setPV g' (g2.idx s) (net s).1 (net s).2) g4
  let g6 := lvs.foldl (fun g' l => setLeaf g' l false) g5
  let olds := (lastSeen g1.idx sub).map g2.idx
  let g7 := (olds.filter fun o => allNeighSet g6 o).foldl (fun g' o => setLeaf g' o false) g6
  let nbrRow := fun (l : ℕ) (a : Fin k) => g7.neighbors l a
  lvs.foldl (fun g' l =>
      let mx := qMax ((List.finRange k).map fun a => g'.V (nbrRow l a))
      (List.finRange k).foldl (fun g'' a => setW g'' (nbrRow l a) (tm.rev a) mx) g') g7

/-- `MCTS.expand_leaves(leaves_idcs)`: generate all successors of the
batch, scan them for a solved state (recording `(leaf_idx, action_idx)`
and calling `_update_neighbors` on the solving leaf if found — the
source does **not** return early), then run the rest of the body in
either case.  Returns the updated store and the solve pair (`none`
models `(-1, -1)`). -/
def expandLeaves [DecidableEq S] [NeZero k] (tm : TransModel S k)
    (net : S → (Fin k → ℚ) × ℚ) (g : MState S k) (lvs : List ℕ) :
    MState S k × Option (ℕ × Fin k) :=
  match (subList tm g lvs).findIdx? fun s => tm.isSolved s with
  | some i =>
    (expandBody tm net g (updateNeighborsB tm g (lvs.getD (i / k) 0)) lvs,
      some (i / k, ⟨i % k, Nat.mod_lt i (NeZero.pos k)⟩))
  | none => (expandBody tm net g g lvs, none)

/-- `np.finfo("float").eps`, i.e. `2⁻⁵²`, as an exact rational (written
with `mkRat` so that it evaluates by kernel reduction). -/
def epsQ : ℚ := mkRat 1 (2 ^ 52)

theorem epsQ_eq : epsQ = 1 / 2 ^ 52 := by
  norm_num [epsQ]

/-- Exact decision of `sqrt n < q` for a natural `n` and rational `q`,
used for the source comparison `np.sqrt(self.N[ci].sum()) < self.eps`. -/
def sqrtLtQ (n : ℕ) (q : ℚ) : Bool :=
  decide (0 ≤ q) && decide ((n : ℚ) < q ^ 2)

/-- A UCT score `U + Q` at one action, kept in exact form: the pair
`(u, w)` denotes `u * sqrt(ΣN) + w`, with
`u = c * P[a] / (1 + N[a])` and `w = W[a] - L[a]`. -/
def uctPair (c : ℚ) (g : MState S k) (h : ℕ) (a : Fin k) : ℚ × ℚ :=
  (c * g.P h a / (1 + (g.N h a : ℚ)), g.W h a - g.L h a)

/-- Exact decision of
`p.1 * sqrt n + p.2 ≤ q.1 * sqrt n + q.2` over the rationals. -/
def scoreLE (n : ℕ) (p q : ℚ × ℚ) : Bool :=
  let e := p.1 - q.1
  let f := q.2 - p.2
  if 0 ≤ e then decide (0 ≤ f) && decide (e ^ 2 * n ≤ f ^ 2)
  else decide (0 ≤ f) || decide (f ^ 2 ≤ e ^ 2 * n)

/-- `np.argmax` over the `k` scores (first maximal index), comparing the
exact score representations with `scoreLE`. -/
def argmaxScore [NeZero k] (n : ℕ) (f : Fin k → ℚ × ℚ) : Fin k :=
  (List.finRange k).foldl (fun best i => if scoreLE n (f i) (f best) then best else i)
    ⟨0, NeZero.pos k⟩

/-- `self.N[current_index].sum()`. -/
def sumN (g : MState S k) (h : ℕ) : ℕ :=
  ((List.finRange k).map (g.N h)).sum

/-- One look of `MCTS.find_leaf`'s while loop plus the loop itself, with
the wall clock as fuel and `np.random.randint` as draws from `rng`:
while the current node is not a leaf (and time remains), pick an action
(uniformly at random if the node was never visited, else by the UCT
rule), bump `N` and the virtual loss `L`, append the action to the path
and descend along the neighbor edge. -/
def findLeafGo [NeZero k] (c nu : ℚ) (g : MState S k) (cur : ℕ)
    (path : List (Fin k)) (rng : ℕ → Fin k) (t : ℕ) :
    ℕ → List (Fin k) × ℕ × MState S k × ℕ
  | 0 => (path, cur, g, t)
  | fuel + 1 =>
    if g.leaves cur then (path, cur, g, t)
    else
      let n := sumN g cur
      let sel : Fin k × ℕ :=
        if sqrtLtQ n epsQ then (rng t, t + 1)
        else (argmaxScore n (fun b => uctPair c g cur b), t)
      let g' := bumpNL g cur sel.1 nu
      findLeafGo c nu g' (g'.neighbors cur sel.1) (path ++ [sel.1]) rng sel.2 fuel

/-- The worker round
`paths, leaves = zip(*[self.find_leaf(time_limit) for _ in range(self.workers)])`:
the traversals run in order, sharing the store (so the virtual loss laid
down by one worker is seen by the next) and the random stream. -/
def collectLeaves [NeZero k] (c nu : ℚ) (g : MState S k) (rng : ℕ → Fin k)
    (t flFuel : ℕ) : ℕ → List (List (Fin k)) × List ℕ × MState S k × ℕ
  | 0 => ([], [], g, t)
  | w + 1 =>
    let r := findLeafGo c nu g 1 [] rng t flFuel
    let rest := collectLeaves c nu r.2.2.1 rng r.2.2.2 flFuel w
    (r.1 :: rest.1, r.2.1 :: rest.2.1, rest.2.2)

/-- Result surface of one `search` call: the returned boolean, the
`action_queue` afterwards, and the final store. -/
structure SearchResult (S : Type) (k : ℕ) where
  solved : Bool
  queue : List (Fin k)
  graph : MState S k

/-- The store right after `reset()` plus the two seeding writes
`self.indices[state.tostring()] = 1; self.states[1] = state`.  The
uninitialised `np.empty` entries are modelled by the fixed defaults 0
and the root state. -/
def initMState (root : S) [DecidableEq S] : MState S k :=
  { nStates := 1
    stateOf := fun _ => root
    idx := fun s => if s = root then 1 else 0
    neighbors := fun _ _ => 0
    leaves := fun _ => true
    P := fun _ _ => 0
    V := fun _ => 0
    N := fun _ _ => 0
    W := fun _ _ => 0
    L := fun _ _ => 0 }

/-- The search loop of `MCTS.search`: while time (fuel) remains and
`len(self) < max_states`, expand the collected leaves; on a solve pair
`(i, a)` set `action_queue = paths[i] + [a]` and return `True`
(`_shorten_action_queue` is a stub in the source), otherwise collect the
next worker round.  On exhaustion it returns `False` with the queue left
as `reset()` made it: empty. -/
def mctsLoop [DecidableEq S] [NeZero k] (tm : TransModel S k)
    (net : S → (Fin k → ℚ) × ℚ) (c nu : ℚ) (workers maxStates : ℕ)
    (rng : ℕ → Fin k) (flFuel : ℕ) (g : MState S k)
    (paths : List (List (Fin k))) (lvs : List ℕ) (t : ℕ) :
    ℕ → SearchResult S k
  | 0 => ⟨false, [], g⟩
  | fuel + 1 =>
    if g.nStates < maxStates then
      let er := expandLeaves tm net g lvs
      match er.2 with
      | some pa => ⟨true, paths.getD pa.1 [] ++ [pa.2], er.1⟩
      | none =>
        let cr := collectLeaves c nu er.1 rng t flFuel workers
        mctsLoop tm net c nu workers maxStates rng flFuel cr.2.2.1 cr.1 cr.2.1 cr.2.2.2 fuel
    else ⟨false, [], g⟩

/-- `MCTS.search(state, time_limit, max_states)`: reset and seed the
stacks with the root, return `True` at once if it is already solved,
evaluate the root through the oracle, then run the expansion loop
starting from `paths = [deque()]`, `leaves = [1]`. -/
def mctsSearch [DecidableEq S] [NeZero k] (tm : TransModel S k)
    (net : S → (Fin k → ℚ) × ℚ) (c nu : ℚ) (workers : ℕ) (root : S)
    (rng : ℕ → Fin k) (flFuel maxStates fuel : ℕ) : SearchResult S k :=
  let g0 : MState S k := initMState root
  if tm.isSolved root then ⟨true, [], g0⟩
  else
    let g1 := setPV g0 1 (net root).1 (net root).2
    mctsLoop tm net c nu workers maxStates rng flFuel g1 [[]] [1] 0 fuel

/-! ### BFS (class `BFS` of search.py) -/

/-- Rebuilding the action queue from the BFS parent map: starting from
the predecessor of the solved state, repeatedly `appendleft` the stored
action and step to the stored parent until the root (whose entry is
`(None, None)`) is reached.  The recursion is fueled by the size of the
map, which bounds the length of any parent chain. -/
def bfsRecon [DecidableEq S] (vis : List (S × Option (S × Fin k))) (cur : S)
    (acc : List (Fin k)) : ℕ → List (Fin k)
  | 0 => acc
  | fuel + 1 =>
    match (vis.find? fun p => p.1 = cur).map Prod.snd with
    | some (some pa) => bfsRecon vis pa.1 (pa.2 :: acc) fuel
    | _ => acc

/-- The inner `for i, action in enumerate(Cube.action_space)` loop of
`BFS.search`: skip seen successors, return the solving action if one is
solved, otherwise record parent and action and enqueue. -/
def bfsActions [DecidableEq S] (tm : TransModel S k)
    (vis : List (S × Option (S × Fin k))) (queue : List S) (s : S) :
    List (Fin k) → (List (S × Option (S × Fin k)) × List S) ⊕ Fin k
  | [] => Sum.inl (vis, queue)
  | a :: rest =>
    let ns := tm.rotate s a
    if (vis.find? fun p => p.1 = ns).isSome then bfsActions tm vis queue s rest
    else if tm.isSolved ns then Sum.inr a
    else bfsActions tm (vis ++ [(ns, some (s, a))]) (queue ++ [ns]) s rest

/-- The main `while self.tt.tock() < time_limit` loop of `BFS.search`.
The body starts with `state = queue.popleft()` with **no** emptiness
check, so an empty queue with time remaining raises `IndexError`,
modelled as `none`; `some (b, q)` models a normal return of `b` with
action queue `q`. -/
def bfsGo [DecidableEq S] [NeZero k] (tm : TransModel S k)
    (vis : List (S × Option (S × Fin k))) (queue : List S) :
    ℕ → Option (Bool × List (Fin k))
  | 0 => some (false, [])
  | fuel + 1 =>
    match queue with
    | [] => none
    | s :: rest =>
      match bfsActions tm vis rest s (List.finRange k) with
      | Sum.inr a => some (true, bfsRecon vis s [a] vis.length)
      | Sum.inl vq => bfsGo tm vq.1 vq.2 fuel

/-- `BFS.search(state, time_limit)`. -/
def bfsSearch [DecidableEq S] [NeZero k] (tm : TransModel S k) (root : S)
    (fuel : ℕ) : Option (Bool × List (Fin k)) :=
  if tm.isSolved root then some (true, [])
  else bfsGo tm [(root, none)] [root] fuel

/-! ### The base `Searcher.search` loop and `RandomDFS` -/

/-- `RandomDFS._step`: draw a random action, rotate, report whether the
new state is solved.  The random stream counter is threaded through. -/
def randomDFSStep (tm : TransModel S k) (rng : ℕ → Fin k) :
    S → ℕ → (Fin k × S × Bool) × ℕ :=
  fun s t =>
    let a := rng t
    let s2 := tm.rotate s a
    ((a, s2, tm.isSolved s2), t + 1)

/-- The `while self.tt.tock() < time_limit` loop of the base
`Searcher.search`: call `_step`, append the action to `action_queue`,
return `True` when a solution is reported; on timeout return `False`
with the queue holding every action taken so far. -/
def searcherGo (step : S → ℕ → (Fin k × S × Bool) × ℕ) (s : S)
    (q : List (Fin k)) (t : ℕ) : ℕ → Bool × List (Fin k)
  | 0 => (false, q)
  | fuel + 1 =>
    let r := step s t
    let q2 := q ++ [r.1.1]
    if r.1.2.2 then (true, q2) else searcherGo step r.1.2.1 q2 r.2 fuel

/-- `Searcher.search(state, time_limit)` for the one-step searchers:
reset (empty queue), immediate `True` on a solved root, else the step
loop. -/
def searcherSearch (tm : TransModel S k) (step : S → ℕ → (Fin k × S × Bool) × ℕ)
    (root : S) (fuel : ℕ) : Bool × List (Fin k) :=
  if tm.isSolved root then (true, []) else searcherGo step root [] 0 fuel

/-! ### MCTS2 (the "Old MCTS" class of search.py)

`MCTS2` stores `Node` objects in the dict `self.states`, keyed by the
state's canonical form, with neighbor links holding node references.
Since nodes correspond one-to-one to their states, node references are
modelled as state keys looked up in an association list kept in
insertion order. -/

/-- The `Node` class of search.py.  A solved node is constructed with
`policy = None` and `value = None`, hence the `Option`s. -/
structure Node2 (S : Type) (k : ℕ) where
  is_leaf : Bool
  state : S
  P : Option (Fin k → ℚ)
  value : Option ℚ
  neighs : Fin k → Option S
  N : Fin k → ℕ
  W : Fin k → ℚ
  L : Fin k → ℚ

/-- The `self.states` dict of `MCTS2`. -/
abbrev Dict2 (S : Type) (k : ℕ) := List (S × Node2 S k)

/-- Dict lookup `self.states[key]` / `key in self.states`. -/
def d2find [DecidableEq S] (d : Dict2 S k) (s : S) : Option (Node2 S k) :=
  (d.find? fun p => p.1 = s).map Prod.snd

/-- Dict write `self.states[key] = node` (replaces an existing entry,
appends a new one). -/
def d2insert [DecidableEq S] (d : Dict2 S k) (s : S) (n : Node2 S k) : Dict2 S k :=
  match d with
  | [] => [(s, n)]
  | p :: rest => if p.1 = s then (s, n) :: rest else p :: d2insert rest s n

/-- In-place mutation of the node object stored at a key. -/
def d2modify [DecidableEq S] (d : Dict2 S k) (s : S) (f : Node2 S k → Node2 S k) :
    Dict2 S k :=
  d.map fun p => if p.1 = s then (p.1, f p.2) else p

/-- The `Node.__init__` constructor: a fresh leaf with zeroed statistics
whose reverse edge points to `from_node` when `action_idx` is given. -/
def mkNode2 (tm : TransModel S k) (st : S) (p : Option (Fin k → ℚ))
    (v : Option ℚ) (fr : Option (S × Fin k)) : Node2 S k :=
  { is_leaf := true, state := st, P := p, value := v
    neighs := fun a =>
      match fr with
      | some fn => if a = tm.rev fn.2 then some fn.1 else none
      | none => none
    N := fun _ => 0, W := fun _ => 0, L := fun _ => 0 }

instance [Inhabited S] : Inhabited (Node2 S k) :=
  ⟨{ is_leaf := true, state := default, P := none, value := none,
     neighs := fun _ => none, N := fun _ => 0, W := fun _ => 0, L := fun _ => 0 }⟩

/-- `all(node.neighs)`: every neighbor reference is set. -/
def node2AllNeighs (n : Node2 S k) : Bool :=
  (List.finRange k).all fun a => (n.neighs a).isSome

/-- `MCTS2._update_neighbors(state)`: for every action whose successor is
already in the dict, wire both directions and clear the successor's leaf
flag when it became complete; finally clear the state's own flag when
complete. -/
def mcts2UpdateNeighbors [DecidableEq S] [NeZero k] (tm : TransModel S k)
    (d : Dict2 S k) (s : S) : Dict2 S k :=
  let d1 := (List.finRange k).foldl (fun d' i =>
    let ns := tm.rotate s i
    match d2find d' ns with
    | some _ =>
      let d2 := d2modify d' s fun n =>
        { n with neighs := fun a => if a = i then some ns else n.neighs a }
      let d3 := d2modify d2 ns fun n =>
        { n with neighs := fun a => if a = tm.rev i then some s else n.neighs a }
      match d2find d3 ns with
      | some n => if node2AllNeighs n then d2modify d3 ns (fun m => { m with is_leaf := false }) else d3
      | none => d3
    | none => d') d
  match d2find d1 s with
  | some n => if node2AllNeighs n then d2modify d1 s (fun m => { m with is_leaf := false }) else d1
  | none => d1

/-- One index of the `Generate new states` loop of
`MCTS2.expand_leaves`. -/
def mcts2GenStep [DecidableEq S] [NeZero k] [Inhabited S] (tm : TransModel S k)
    (net : S → (Fin k → ℚ) × ℚ) (complete : Bool) (lvs : List S)
    (d : Dict2 S k) (i : ℕ) : Dict2 S k :=
  let leaf := lvs.getD (i / k) default
  let a : Fin k := ⟨i % k, Nat.mod_lt i (NeZero.pos k)⟩
  let st := tm.rotate leaf a
  let d1 :=
    match d2find d st with
    | none =>
      let nl := mkNode2 tm st (some (net st).1) (some (net st).2) (some (leaf, a))
      let da := d2modify d leaf fun n =>
        { n with neighs := fun b => if b = a then some st else n.neighs b }
      let db := d2insert da st nl
      if complete then mcts2UpdateNeighbors tm db st else db
    | some _ =>
      let da := d2modify d leaf fun n =>
        { n with neighs := fun b => if b = a then some st else n.neighs b }
      let db := d2modify da st fun n =>
        { n with neighs := fun b => if b = tm.rev a then some leaf else n.neighs b }
      match d2find db st with
      | some n => if node2AllNeighs n then d2modify db st (fun m => { m with is_leaf := false }) else db
      | none => db
  d2modify d1 leaf fun n => { n with is_leaf := false }

/-- `MCTS2.expand_leaves(leaves)`: generate all successors; if any is
solved, insert the solved node, wire its neighborhood and return the
`(leaf_idx, action_idx)` pair **at once** — the oracle is never called
and no other successor of the batch is registered.  Otherwise evaluate
the whole batch, run the generate loop and back up the max sibling value
(the `assert max_val != 0` debug assertion of the source is not
modelled). -/
def mcts2Expand [DecidableEq S] [NeZero k] [Inhabited S] (tm : TransModel S k)
    (net : S → (Fin k → ℚ) × ℚ) (complete : Bool) (d : Dict2 S k)
    (lvs : List S) : Dict2 S k × Option (ℕ × Fin k) :=
  let subs := (List.range (lvs.length * k)).map fun i =>
    tm.rotate (lvs.getD (i / k) default) ⟨i % k, Nat.mod_lt i (NeZero.pos k)⟩
  match subs.findIdx? (fun s => tm.isSolved s) with
  | some i =>
    let st := subs.getD i default
    let ai : Fin k := ⟨i % k, Nat.mod_lt i (NeZero.pos k)⟩
    let solved := mkNode2 tm st none none (some (lvs.getD (i / k) default, ai))
    let d1 := d2insert d st solved
    (mcts2UpdateNeighbors tm d1 st, some (i / k, ai))
  | none =>
    let d1 := (List.range (lvs.length * k)).foldl (mcts2GenStep tm net complete lvs) d
    let d2 := lvs.foldl (fun d' leaf =>
      let node := (d2find d' leaf).getD default
      let mx := qMax ((List.finRange k).map fun a =>
        ((node.neighs a).bind fun s => (d2find d' s).bind Node2.value).getD 0)
      (List.finRange k).foldl (fun d'' a =>
        d2modify d'' ((node.neighs a).getD default) fun n =>
          { n with W := fun b => if b = tm.rev a then mx else n.W b }) d') d1
    (d2, none)

/-- `MCTS2.search_leaf(node, time_limit)`: the same UCT walk as
`MCTS.find_leaf`, over node objects; the path is kept as a queue of
Python ints. -/
def mcts2SearchLeaf [DecidableEq S] [NeZero k] [Inhabited S] (c nu : ℚ)
    (d : Dict2 S k) (cur : S) (path : List ℤ) (rng : ℕ → Fin k) (t : ℕ) :
    ℕ → List ℤ × S × Dict2 S k × ℕ
  | 0 => (path, cur, d, t)
  | fuel + 1 =>
    let node := (d2find d cur).getD default
    if node.is_leaf then (path, cur, d, t)
    else
      let n := ((List.finRange k).map node.N).sum
      let sel : Fin k × ℕ :=
        if sqrtLtQ n epsQ then (rng t, t + 1)
        else (argmaxScore n (fun b =>
          (c * (node.P.getD fun _ => 0) b / (1 + (node.N b : ℚ)), node.W b - node.L b)), t)
      let d' := d2modify d cur fun m =>
        { m with N := fun b => if b = sel.1 then m.N b + 1 else m.N b,
                 L := fun b => if b = sel.1 then m.L b + nu else m.L b }
      mcts2SearchLeaf c nu d' ((node.neighs sel.1).getD cur) (path ++ [(sel.1 : ℤ)]) rng sel.2 fuel

/-- The worker round of `MCTS2.search`. -/
def mcts2Collect [DecidableEq S] [NeZero k] [Inhabited S] (c nu : ℚ)
    (d : Dict2 S k) (rootKey : S) (rng : ℕ → Fin k) (t flFuel : ℕ) :
    ℕ → List (List ℤ) × List S × Dict2 S k × ℕ
  | 0 => ([], [], d, t)
  | w + 1 =>
    let r := mcts2SearchLeaf c nu d rootKey [] rng t flFuel
    let rest := mcts2Collect c nu r.2.2.1 rootKey rng r.2.2.2 flFuel w
    (r.1 :: rest.1, r.2.1 :: rest.2.1, rest.2.2)

/-- The `while` loop of `MCTS2.search`.  On exit without a solution the
source runs `self.action_queue = paths[solve_leaf] + deque([solve_action])`
with `solve_leaf = solve_action = -1` — Python indexes `paths[-1]` as the
last collected path and appends the int `-1`; if the loop body never ran,
`solve_leaf` is unbound and a `NameError` is raised, modelled as
`none`. -/
def mcts2Loop [DecidableEq S] [NeZero k] [Inhabited S] (tm : TransModel S k)
    (net : S → (Fin k → ℚ) × ℚ) (c nu : ℚ) (workers maxStates : ℕ)
    (complete : Bool) (rng : ℕ → Fin k) (flFuel : ℕ) (rootKey : S)
    (d : Dict2 S k) (paths : List (List ℤ)) (lvs : List S) (t : ℕ)
    (ranOnce : Bool) : ℕ → Option (Bool × List ℤ × Dict2 S k)
  | 0 => if ranOnce then some (false, paths.getLastD [] ++ [(-1 : ℤ)], d) else none
  | fuel + 1 =>
    if d.length < maxStates then
      let er := mcts2Expand tm net complete d lvs
      match er.2 with
      | some pa => some (true, paths.getD pa.1 [] ++ [(pa.2 : ℤ)], er.1)
      | none =>
        let cr := mcts2Collect c nu er.1 rootKey rng t flFuel workers
        mcts2Loop tm net c nu workers maxStates complete rng flFuel rootKey
          cr.2.2.1 cr.1 cr.2.1 cr.2.2.2 true fuel
    else if ranOnce then some (false, paths.getLastD [] ++ [(-1 : ℤ)], d) else none

/-- `MCTS2.search(state, time_limit, max_states)`: after `reset()` the
dict is empty; an already-solved root returns `True` at once — with the
empty queue and the still-empty dict — otherwise the root node is
evaluated and inserted and the loop runs from `paths = [deque([])]`,
`leaves = [root]`. -/
def mcts2Search [DecidableEq S] [NeZero k] [Inhabited S] (tm : TransModel S k)
    (net : S → (Fin k → ℚ) × ℚ) (c nu : ℚ) (workers maxStates : ℕ)
    (complete : Bool) (root : S) (rng : ℕ → Fin k) (flFuel fuel : ℕ) :
    Option (Bool × List ℤ × Dict2 S k) :=
  if tm.isSolved root then some (true, [], [])
  else
    let rootNode := mkNode2 tm root (some (net root).1) (some (net root).2) none
    let d := d2insert ([] : Dict2 S k) root rootNode
    mcts2Loop tm net c nu workers maxStates complete rng flFuel root d [[]] [root] 0 false fuel

/-! ### The ADI feed-forward retry loop (`Train.ADI_traindata`) -/

/-- The two failure kinds the `except RuntimeError` handler of
`ADI_traindata` distinguishes: a `RuntimeError` whose message contains
`"alloc"` (resource exhaustion), and everything else, which is
re-raised. -/
inductive NetErr where
  | alloc : NetErr
  | other : NetErr
deriving DecidableEq

/-- `Train._get_adi_ff_slices()`: `data_points // adi_ff_batches + 1`
elements per slice; the final slice's overflow is clipped by `take`,
exactly as Python slicing ignores it. -/
def adiSlices (xs : List α) (b : ℕ) : List (List α) :=
  let size := xs.length / b + 1
  (List.range b).map fun i => (xs.drop (i * size)).take size

/-- The list comprehension
`[net(substates_oh[slice_], ...) for slice_ in slices]` followed by
`torch.cat`: slices are evaluated in order and the first raised error
propagates. -/
def evalParts (net : List α → Except NetErr (List β)) :
    List (List α) → Except NetErr (List β)
  | [] => Except.ok []
  | s :: rest =>
    match net s with
    | Except.error e => Except.error e
    | Except.ok ys =>
      match evalParts net rest with
      | Except.error e => Except.error e
      | Except.ok zs => Except.ok (ys ++ zs)

/-- The `while True` retry loop of `ADI_traindata`: evaluate all slices;
break on success, double `adi_ff_batches` and retry on an allocation
`RuntimeError`, re-raise anything else.  `fuel` bounds the retries
(`none` models an endless alloc-failure loop); a success also reports
the batch count in effect. -/
def adiFF (net : List α → Except NetErr (List β)) (xs : List α) :
    ℕ → ℕ → Option (Except NetErr (List β × ℕ))
  | _, 0 => none
  | b, fuel + 1 =>
    match evalParts net (adiSlices xs b) with
    | Except.ok ys => some (Except.ok (ys, b))
    | Except.error NetErr.alloc => adiFF net xs (b * 2) fuel
    | Except.error NetErr.other => some (Except.error NetErr.other)

/-! ### Characterisation of the write folds -/

theorem applyNW_nStates (ws : List (ℕ × Fin k × ℕ)) :
    ∀ g : MState S k, (applyNW g ws).nStates = g.nStates := by
  induction ws with
  | nil => intro g; rfl
  | cons w ws ih => intro g; exact ih (setNeigh g w.1 w.2.1 w.2.2)

theorem applyNW_stateOf (ws : List (ℕ × Fin k × ℕ)) :
    ∀ g : MState S k, (applyNW g ws).stateOf = g.stateOf := by
  induction ws with
  | nil => intro g; rfl
  | cons w ws ih => intro g; exact ih (setNeigh g w.1 w.2.1 w.2.2)

theorem applyNW_idx (ws : List (ℕ × Fin k × ℕ)) :
    ∀ g : MState S k, (applyNW g ws).idx = g.idx := by
  induction ws with
  | nil => intro g; rfl
  | cons w ws ih => intro g; exact ih (setNeigh g w.1 w.2.1 w.2.2)

theorem applyNW_leaves (ws : List (ℕ × Fin k × ℕ)) :
    ∀ g : MState S k, (applyNW g ws).leaves = g.leaves := by
  induction ws with
  | nil => intro g; rfl
  | cons w ws ih => intro g; exact ih (setNeigh g w.1 w.2.1 w.2.2)

theorem applyNW_V (ws : List (ℕ × Fin k × ℕ)) :
    ∀ g : MState S k, (applyNW g ws).V = g.V := by
  induction ws with
  | nil => intro g; rfl
  | cons w ws ih => intro g; exact ih (setNeigh g w.1 w.2.1 w.2.2)

theorem applyNW_P (ws : List (ℕ × Fin k × ℕ)) :
    ∀ g : MState S k, (applyNW g ws).P = g.P := by
  induction ws with
  | nil => intro g; rfl
  | cons w ws ih => intro g; exact ih (setNeigh g w.1 w.2.1 w.2.2)

/-- If no write of the list touches slot `(h, a)`, the slot keeps its
value. -/
theorem applyNW_skip (ws : List (ℕ × Fin k × ℕ)) :
    ∀ (g : MState S k) (h : ℕ) (a : Fin k),
      (∀ w ∈ ws, ¬(w.1 = h ∧ w.2.1 = a)) →
      (applyNW g ws).neighbors h a = g.neighbors h a := by
  induction ws with
  | nil => intro g h a _; rfl
  | cons w ws ih =>
    intro g h a hno
    have h1 := ih (setNeigh g w.1 w.2.1 w.2.2) h a fun w' hw' => hno w' (List.mem_cons_of_mem w hw')
    rw [applyNW, List.foldl_cons] at *
    rw [h1]
    simp only [setNeigh]
    rw [if_neg]
    intro hc
    exact hno w (List.mem_cons_self w ws) ⟨hc.1.symm, hc.2.symm⟩

/-- If some write of the list touches slot `(h, a)` and every write that
touches it carries the same value `v`, the slot ends at `v`. -/
theorem applyNW_uniform (ws : List (ℕ × Fin k × ℕ)) :
    ∀ (g : MState S k) (h : ℕ) (a : Fin k) (v : ℕ),
      (∃ w ∈ ws, w.1 = h ∧ w.2.1 = a) →
      (∀ w ∈ ws, w.1 = h → w.2.1 = a → w.2.2 = v) →
      (applyNW g ws).neighbors h a = v := by
  induction ws with
  | nil => intro g h a v hex _; exact absurd hex (by simp)
  | cons w ws ih =>
    intro g h a v hex hval
    rw [applyNW, List.foldl_cons]
    by_cases htail : ∃ w' ∈ ws, w'.1 = h ∧ w'.2.1 = a
    · exact ih _ h a v htail fun w' hw' => hval w' (List.mem_cons_of_mem w hw')
    · have hw : w.1 = h ∧ w.2.1 = a := by
        rcases hex with ⟨w', hw', hc⟩
        rcases List.mem_cons.mp hw' with rfl | hmem
        · exact hc
        · exact absurd ⟨w', hmem, hc⟩ htail
      have hskip := applyNW_skip ws (setNeigh g w.1 w.2.1 w.2.2) h a
        (fun w' hw' hc => htail ⟨w', hw', hc⟩)
      rw [applyNW] at hskip
      rw [hskip]
      simp only [setNeigh, hw.1, hw.2, and_self, if_true]
      exact hval w (List.mem_cons_self w ws) hw.1 hw.2

/-- Every slot after the fold either kept its value or carries the value
of one of the writes to it. -/
theorem applyNW_cases (ws : List (ℕ × Fin k × ℕ)) :
    ∀ (g : MState S k) (h : ℕ) (a : Fin k),
      (applyNW g ws).neighbors h a = g.neighbors h a ∨
      ∃ w ∈ ws, w.1 = h ∧ w.2.1 = a ∧ w.2.2 = (applyNW g ws).neighbors h a := by
  induction ws with
  | nil => intro g h a; left; rfl
  | cons w ws ih =>
    intro g h a
    rw [applyNW, List.foldl_cons]
    rcases ih (setNeigh g w.1 w.2.1 w.2.2) h a with heq | ⟨w', hw', hc⟩
    · rw [applyNW] at heq
      by_cases hw : w.1 = h ∧ w.2.1 = a
      · right
        refine ⟨w, List.mem_cons_self w ws, hw.1, hw.2, ?_⟩
        rw [heq]
        simp [setNeigh, hw.1, hw.2]
      · left
        rw [heq]
        simp only [setNeigh]
        rw [if_neg]
        intro hc
        exact hw ⟨hc.1.symm, hc.2.symm⟩
    · right
      exact ⟨w', List.mem_cons_of_mem w hw', hc⟩

/-- Characterisation of a fold of `setLeaf` writes whose value depends
only on the written handle. -/
theorem foldl_setLeaf_leaves (f : ℕ → Bool) (ls : List ℕ) :
    ∀ (g : MState S k) (h : ℕ),
      (ls.foldl (fun g' x => setLeaf g' x (f x)) g).leaves h
        = if h ∈ ls then f h else g.leaves h := by
  induction ls with
  | nil => intro g h; simp
  | cons x ls ih =>
    intro g h
    rw [List.foldl_cons, ih]
    by_cases hmem : h ∈ ls
    · simp [hmem]
    · by_cases hx : h = x
      · subst hx
        simp [hmem, setLeaf]

      · simp [hmem, hx, setLeaf]

theorem foldl_setLeaf_frame (f : ℕ → Bool) (ls : List ℕ) :
    ∀ g : MState S k,
      (ls.foldl (fun g' x => setLeaf g' x (f x)) g).nStates = g.nStates ∧
      (ls.foldl (fun g' x => setLeaf g' x (f x)) g).stateOf = g.stateOf ∧
      (ls.foldl (fun g' x => setLeaf g' x (f x)) g).idx = g.idx ∧
      (ls.foldl (fun g' x => setLeaf g' x (f x)) g).neighbors = g.neighbors ∧
      (ls.foldl (fun g' x => setLeaf g' x (f x)) g).V = g.V ∧
      (ls.foldl (fun g' x => setLeaf g' x (f x)) g).P = g.P := by
  induction ls with
  | nil => intro g; exact ⟨rfl, rfl, rfl, rfl, rfl, rfl⟩
  | cons x ls ih => intro g; exact ih (setLeaf g x (f x))

/-! ### Characterisation of the registration fold -/

theorem registerAll_nStates [DecidableEq S] (xs : List S) :
    ∀ g : MState S k, (xs.foldl registerState g).nStates = g.nStates + xs.length := by
  induction xs with
  | nil => intro g; rfl
  | cons x xs ih =>
    intro g
    rw [List.foldl_cons, ih]
    simp [registerState]
    omega

theorem registerAll_frame [DecidableEq S] (xs : List S) :
    ∀ g : MState S k,
      (xs.foldl registerState g).neighbors = g.neighbors ∧
      (xs.foldl registerState g).leaves = g.leaves ∧
      (xs.foldl registerState g).V = g.V ∧
      (xs.foldl registerState g).P = g.P := by
  induction xs with
  | nil => intro g; exact ⟨rfl, rfl, rfl, rfl⟩
  | cons x xs ih => intro g; exact ih (registerState g x)

/-- States outside the registered list keep their index. -/
theorem registerAll_idx_of_not_mem [DecidableEq S] (xs : List S) :
    ∀ (g : MState S k) (s : S), s ∉ xs →
      (xs.foldl registerState g).idx s = g.idx s := by
  induction xs with
  | nil => intro g s _; rfl
  | cons x xs ih =>
    intro g s hs
    rw [List.foldl_cons, ih _ _ (fun h => hs (List.mem_cons_of_mem x h))]
    simp only [registerState]
    have hne : s ≠ x := fun h => hs (by rw [h]; exact List.mem_cons_self x xs)
    rw [if_neg hne]

/-- Handles at or below the original size keep their state. -/
theorem registerAll_stateOf_low [DecidableEq S] (xs : List S) :
    ∀ (g : MState S k) (h : ℕ), h ≤ g.nStates →
      (xs.foldl registerState g).stateOf h = g.stateOf h := by
  induction xs with
  | nil => intro g h _; rfl
  | cons x xs ih =>
    intro g h hh
    rw [List.foldl_cons, ih _ _ (by simp [registerState]; omega)]
    simp only [registerState]
    rw [if_neg (by omega)]

/-- Every registered state receives a fresh index in the new range, and
its slot stores it back. -/
theorem registerAll_mem [DecidableEq S] (xs : List S) :
    ∀ (g : MState S k) (s : S), s ∈ xs → xs.Nodup →
      g.nStates < (xs.foldl registerState g).idx s ∧
      (xs.foldl registerState g).idx s ≤ g.nStates + xs.length ∧
      (xs.foldl registerState g).stateOf ((xs.foldl registerState g).idx s) = s := by
  induction xs with
  | nil => intro g s hs; exact absurd hs (by simp)
  | cons x xs ih =>
    intro g s hs hnd
    have hndx : x ∉ xs := (List.nodup_cons.mp hnd).1
    have hndt : xs.Nodup := (List.nodup_cons.mp hnd).2
    rw [List.foldl_cons]
    rcases List.mem_cons.mp hs with rfl | hmem
    · have hidx : (xs.foldl registerState (registerState g s)).idx s
          = (registerState g s).idx s := registerAll_idx_of_not_mem xs _ s hndx
      have hidx2 : (registerState g s).idx s = g.nStates + 1 := by
        simp [registerState]
      have hst : (xs.foldl registerState (registerState g s)).stateOf (g.nStates + 1)
          = (registerState g s).stateOf (g.nStates + 1) :=
        registerAll_stateOf_low xs _ _ (by simp [registerState])
      refine ⟨?_, ?_, ?_⟩
      · rw [hidx, hidx2]; omega
      · rw [hidx, hidx2]; simp only [List.length_cons]; omega
      · rw [hidx, hidx2, hst]
        simp [registerState]
    · have h1 := ih (registerState g x) s hmem hndt
      have hns : (registerState g x).nStates = g.nStates + 1 := by simp [registerState]
      rw [hns] at h1
      refine ⟨by omega, ?_, h1.2.2⟩
      have := h1.2.1
      simp only [List.length_cons]
      omega

/-- Every handle of the new range is the image of a registered state. -/
theorem registerAll_surj [DecidableEq S] (xs : List S) :
    ∀ (g : MState S k) (h : ℕ), xs.Nodup → g.nStates < h → h ≤ g.nStates + xs.length →
      ∃ s ∈ xs, (xs.foldl registerState g).idx s = h ∧
        (xs.foldl registerState g).stateOf h = s := by
  induction xs with
  | nil => intro g h _ h1 h2; simp at h2; omega
  | cons x xs ih =>
    intro g h hnd h1 h2
    have hndx : x ∉ xs := (List.nodup_cons.mp hnd).1
    have hndt : xs.Nodup := (List.nodup_cons.mp hnd).2
    rw [List.foldl_cons]
    by_cases hh : h = g.nStates + 1
    · refine ⟨x, List.mem_cons_self x xs, ?_, ?_⟩
      · rw [registerAll_idx_of_not_mem xs _ x hndx]
        simp [registerState, hh]
      · rw [hh, registerAll_stateOf_low xs _ _ (by simp [registerState])]
        simp [registerState]
    · have hns : (registerState g x).nStates = g.nStates + 1 := by simp [registerState]
      have hlen : h ≤ (registerState g x).nStates + xs.length := by
        simp only [List.length_cons] at h2; omega
      rcases ih (registerState g x) h hndt (by omega) hlen with ⟨s, hs, hi, hst⟩
      exact ⟨s, List.mem_cons_of_mem x hs, hi, hst⟩

/-! ### Characterisation of the `setPV` fold -/

theorem foldl_setPV_frame [DecidableEq S] (idxf : S → ℕ)
    (net : S → (Fin k → ℚ) × ℚ) (xs : List S) :
    ∀ g : MState S k,
      (xs.foldl (fun g' x => setPV g' (idxf x) (net x).1 (net x).2) g).nStates = g.nStates ∧
      (xs.foldl (fun g' x => setPV g' (idxf x) (net x).1 (net x).2) g).stateOf = g.stateOf ∧
      (xs.foldl (fun g' x => setPV g' (idxf x) (net x).1 (net x).2) g).idx = g.idx ∧
      (xs.foldl (fun g' x => setPV g' (idxf x) (net x).1 (net x).2) g).neighbors = g.neighbors ∧
      (xs.foldl (fun g' x => setPV g' (idxf x) (net x).1 (net x).2) g).leaves = g.leaves := by
  induction xs with
  | nil => intro g; exact ⟨rfl, rfl, rfl, rfl, rfl⟩
  | cons x xs ih => intro g; exact ih (setPV g (idxf x) (net x).1 (net x).2)

theorem foldl_setPV_V_skip [DecidableEq S] (idxf : S → ℕ)
    (net : S → (Fin k → ℚ) × ℚ) (xs : List S) :
    ∀ (g : MState S k) (h : ℕ), (∀ x ∈ xs, idxf x ≠ h) →
      (xs.foldl (fun g' x => setPV g' (idxf x) (net x).1 (net x).2) g).V h = g.V h := by
  induction xs with
  | nil => intro g h _; rfl
  | cons x xs ih =>
    intro g h hno
    rw [List.foldl_cons, ih _ _ (fun y hy => hno y (List.mem_cons_of_mem x hy))]
    simp only [setPV]
    rw [if_neg]
    intro hc
    exact hno x (List.mem_cons_self x xs) (hc ▸ rfl)

theorem foldl_setPV_V_mem [DecidableEq S] (idxf : S → ℕ)
    (net : S → (Fin k → ℚ) × ℚ) (xs : List S) :
    ∀ (g : MState S k) (x : S), x ∈ xs →
      (∀ y ∈ xs, idxf y = idxf x → y = x) →
      (xs.foldl (fun g' z => setPV g' (idxf z) (net z).1 (net z).2) g).V (idxf x)
        = (net x).2 := by
  induction xs with
  | nil => intro g x hx; exact absurd hx (by simp)
  | cons y ys ih =>
    intro g x hx huniq
    rw [List.foldl_cons]
    rcases List.mem_cons.mp hx with rfl | hmem
    · by_cases hmem2 : x ∈ ys
      · exact ih _ x hmem2 fun z hz he => huniq z (List.mem_cons_of_mem x hz) he
      · rw [foldl_setPV_V_skip idxf net ys _ _ ?_]
        · simp [setPV]
        · intro z hz hc
          have := huniq z (List.mem_cons_of_mem x hz) hc
          exact hmem2 (this ▸ hz)
    · exact ih _ x hmem fun z hz he => huniq z (List.mem_cons_of_mem y hz) he

/-! ### Characterisation of the `W` back-up fold -/

/-- Applying a list of `W` writes in order. -/
def applyWW (g : MState S k) (ws : List (ℕ × Fin k × ℚ)) : MState S k :=
  ws.foldl (fun g' w => setW g' w.1 w.2.1 w.2.2) g

theorem applyWW_frame (ws : List (ℕ × Fin k × ℚ)) :
    ∀ g : MState S k,
      (applyWW g ws).nStates = g.nStates ∧
      (applyWW g ws).stateOf = g.stateOf ∧
      (applyWW g ws).idx = g.idx ∧
      (applyWW g ws).neighbors = g.neighbors ∧
      (applyWW g ws).leaves = g.leaves ∧
      (applyWW g ws).V = g.V ∧
      (applyWW g ws).P = g.P := by
  induction ws with
  | nil => intro g; exact ⟨rfl, rfl, rfl, rfl, rfl, rfl, rfl⟩
  | cons w ws ih => intro g; exact ih (setW g w.1 w.2.1 w.2.2)

theorem applyWW_skip (ws : List (ℕ × Fin k × ℚ)) :
    ∀ (g : MState S k) (h : ℕ) (a : Fin k),
      (∀ w ∈ ws, ¬(w.1 = h ∧ w.2.1 = a)) →
      (applyWW g ws).W h a = g.W h a := by
  induction ws with
  | nil => intro g h a _; rfl
  | cons w ws ih =>
    intro g h a hno
    have h1 := ih (setW g w.1 w.2.1 w.2.2) h a fun w' hw' => hno w' (List.mem_cons_of_mem w hw')
    rw [applyWW, List.foldl_cons] at *
    rw [h1]
    simp only [setW]
    rw [if_neg]
    intro hc
    exact hno w (List.mem_cons_self w ws) ⟨hc.1.symm, hc.2.symm⟩

theorem applyWW_uniform (ws : List (ℕ × Fin k × ℚ)) :
    ∀ (g : MState S k) (h : ℕ) (a : Fin k) (v : ℚ),
      (∃ w ∈ ws, w.1 = h ∧ w.2.1 = a) →
      (∀ w ∈ ws, w.1 = h → w.2.1 = a → w.2.2 = v) →
      (applyWW g ws).W h a = v := by
  induction ws with
  | nil => intro g h a v hex _; exact absurd hex (by simp)
  | cons w ws ih =>
    intro g h a v hex hval
    rw [applyWW, List.foldl_cons]
    by_cases htail : ∃ w' ∈ ws, w'.1 = h ∧ w'.2.1 = a
    · exact ih _ h a v htail fun w' hw' => hval w' (List.mem_cons_of_mem w hw')
    · have hw : w.1 = h ∧ w.2.1 = a := by
        rcases hex with ⟨w', hw', hc⟩
        rcases List.mem_cons.mp hw' with rfl | hmem
        · exact hc
        · exact absurd ⟨w', hmem, hc⟩ htail
      have hskip := applyWW_skip ws (setW g w.1 w.2.1 w.2.2) h a
        (fun w' hw' hc => htail ⟨w', hw', hc⟩)
      rw [applyWW] at hskip
      rw [hskip]
      simp only [setW, hw.1, hw.2, and_self, if_true]
      exact hval w (List.mem_cons_self w ws) hw.1 hw.2

/-- The nested back-up fold of `expand_leaves` (max sibling value onto
each reverse edge) equals one flat write list whose values are computed
from the state at the start of the phase — the inner folds only touch
`W`, which the value computation never reads. -/
theorem wPhase_flatten (nbr : ℕ → Fin k → ℕ) (rev : Fin k → Fin k) (lvs : List ℕ) :
    ∀ g : MState S k,
      lvs.foldl (fun g' l =>
        let mx := qMax ((List.finRange k).map fun a => g'.V (nbr l a))
        (List.finRange k).foldl (fun g'' a => setW g'' (nbr l a) (rev a) mx) g') g
      = applyWW g (lvs.flatMap fun l =>
          (List.finRange k).map fun a =>
            (nbr l a, rev a, qMax ((List.finRange k).map fun b => g.V (nbr l b)))) := by
  induction lvs with
  | nil => intro g; rfl
  | cons l lvs ih =>
    intro g
    rw [List.foldl_cons, List.flatMap_cons]
    have hinner : (List.finRange k).foldl
        (fun g'' a => setW g'' (nbr l a) (rev a)
          (qMax ((List.finRange k).map fun b => g.V (nbr l b)))) g
        = applyWW g ((List.finRange k).map fun a =>
            (nbr l a, rev a, qMax ((List.finRange k).map fun b => g.V (nbr l b)))) := by
      rw [applyWW, List.foldl_map]
    rw [applyWW, List.foldl_append, ← applyWW, ← applyWW, ← hinner]
    have hV : ((List.finRange k).foldl
        (fun g'' a => setW g'' (nbr l a) (rev a)
          (qMax ((List.finRange k).map fun b => g.V (nbr l b)))) g).V = g.V := by
      rw [hinner]
      exact (applyWW_frame _ _).2.2.2.2.2.1
    rw [ih]
    congr 1
    simp only [hV]

/-! ### Simple membership facts about the batch lists -/

theorem newUnseen_sub [DecidableEq S] (idxf : S → ℕ) :
    ∀ (l : List S) (s : S), s ∈ newUnseen idxf l → s ∈ l ∧ idxf s = 0 := by
  intro l
  induction l with
  | nil => intro s hs; exact absurd hs (by simp [newUnseen])
  | cons x xs ih =>
    intro s hs
    rw [newUnseen] at hs
    by_cases hc : x ∈ xs ∨ idxf x ≠ 0
    · rw [if_pos hc] at hs
      rcases ih s hs with ⟨h1, h2⟩
      exact ⟨List.mem_cons_of_mem x h1, h2⟩
    · rw [if_neg hc] at hs
      push_neg at hc
      rcases List.mem_cons.mp hs with rfl | hmem
      · exact ⟨List.mem_cons_self s xs, hc.2⟩
      · rcases ih s hmem with ⟨h1, h2⟩
        exact ⟨List.mem_cons_of_mem x h1, h2⟩

theorem newUnseen_nodup [DecidableEq S] (idxf : S → ℕ) :
    ∀ l : List S, (newUnseen idxf l).Nodup := by
  intro l
  induction l with
  | nil => simp [newUnseen]
  | cons x xs ih =>
    rw [newUnseen]
    by_cases hc : x ∈ xs ∨ idxf x ≠ 0
    · rw [if_pos hc]; exact ih
    · rw [if_neg hc]
      push_neg at hc
      exact List.nodup_cons.mpr ⟨fun hmem => hc.1 (newUnseen_sub idxf xs x hmem).1, ih⟩

theorem mem_newUnseen [DecidableEq S] (idxf : S → ℕ) :
    ∀ (l : List S) (s : S), s ∈ l → idxf s = 0 → s ∈ newUnseen idxf l := by
  intro l
  induction l with
  | nil => intro s hs; exact absurd hs (by simp)
  | cons x xs ih =>
    intro s hs h0
    rw [newUnseen]
    rcases List.mem_cons.mp hs with rfl | hmem
    · by_cases hc : s ∈ xs ∨ idxf s ≠ 0
      · rcases hc with hmem | hne
        · rw [if_pos (Or.inl hmem)]; exact ih s hmem h0
        · exact absurd h0 hne
      · rw [if_neg hc]; exact List.mem_cons_self s _
    · by_cases hc : x ∈ xs ∨ idxf x ≠ 0
      · rw [if_pos hc]; exact ih s hmem h0
      · rw [if_neg hc]; exact List.mem_cons_of_mem x (ih s hmem h0)

theorem lastSeen_sub [DecidableEq S] (idxf : S → ℕ) :
    ∀ (l : List S) (s : S), s ∈ lastSeen idxf l → s ∈ l ∧ idxf s ≠ 0 := by
  intro l
  induction l with
  | nil => intro s hs; exact absurd hs (by simp [lastSeen])
  | cons x xs ih =>
    intro s hs
    rw [lastSeen] at hs
    by_cases hc : x ∈ xs ∨ idxf x = 0
    · rw [if_pos hc] at hs
      rcases ih s hs with ⟨h1, h2⟩
      exact ⟨List.mem_cons_of_mem x h1, h2⟩
    · rw [if_neg hc] at hs
      push_neg at hc
      rcases List.mem_cons.mp hs with rfl | hmem
      · exact ⟨List.mem_cons_self s xs, hc.2⟩
      · rcases ih s hmem with ⟨h1, h2⟩
        exact ⟨List.mem_cons_of_mem x h1, h2⟩

/-! ### Batch and index arithmetic for the flattened successor lists -/

theorem getD_mem_of_lt {α : Type} (l : List α) (n : ℕ) (d : α) (h : n < l.length) :
    l.getD n d ∈ l := by
  rw [List.getD_eq_getElem?_getD, List.getElem?_eq_getElem h]
  exact List.getElem_mem h

theorem tripList_length [NeZero k] (lvs : List ℕ) :
    ((tripList lvs : List (ℕ × Fin k))).length = lvs.length * k := by
  simp [tripList]

theorem subList_length [NeZero k] (tm : TransModel S k) (g : MState S k) (lvs : List ℕ) :
    (subList tm g lvs).length = lvs.length * k := by
  simp [subList, tripList]

theorem tripList_fst_mem [NeZero k] (lvs : List ℕ) (p : ℕ × Fin k)
    (hp : p ∈ (tripList lvs : List (ℕ × Fin k))) : p.1 ∈ lvs := by
  rcases List.mem_map.mp hp with ⟨i, hi, hpe⟩
  rw [List.mem_range] at hi
  have hik : i / k < lvs.length := Nat.div_lt_of_lt_mul (by rw [Nat.mul_comm] at hi; exact hi)
  rw [← hpe]
  exact getD_mem_of_lt lvs (i / k) 0 hik

theorem mem_tripList [NeZero k] (lvs : List ℕ) (l : ℕ) (a : Fin k)
    (hl : l ∈ lvs) : (l, a) ∈ (tripList lvs : List (ℕ × Fin k)) := by
  rcases List.getElem_of_mem hl with ⟨p, hp, hget⟩
  refine List.mem_map.mpr ⟨p * k + a.val, ?_, ?_⟩
  · rw [List.mem_range]
    have h1 : p + 1 ≤ lvs.length := hp
    calc p * k + a.val < p * k + k := by omega
    _ = (p + 1) * k := by ring
    _ ≤ lvs.length * k := Nat.mul_le_mul_right k h1
  · have hdiv : (p * k + a.val) / k = p := by
      rw [Nat.add_comm, Nat.add_mul_div_right _ _ (NeZero.pos k),
        Nat.div_eq_of_lt a.isLt]
      omega
    have hmod : (p * k + a.val) % k = a.val := by
      rw [Nat.add_comm, Nat.add_mul_mod_self_right, Nat.mod_eq_of_lt a.isLt]
    have hgd : lvs.getD p 0 = l := by
      rw [List.getD_eq_getElem?_getD, List.getElem?_eq_getElem hp, hget]
      rfl
    simp only [hdiv, hmod, hgd, Fin.eta]

theorem mem_subList [NeZero k] (tm : TransModel S k) (g : MState S k)
    (lvs : List ℕ) (l : ℕ) (a : Fin k) (hl : l ∈ lvs) :
    tm.rotate (g.stateOf l) a ∈ subList tm g lvs :=
  List.mem_map.mpr ⟨(l, a), mem_tripList lvs l a hl, rfl⟩

theorem subList_mem_inv [NeZero k] (tm : TransModel S k) (g : MState S k)
    (lvs : List ℕ) (s : S) (hs : s ∈ subList tm g lvs) :
    ∃ p ∈ (tripList lvs : List (ℕ × Fin k)), s = tm.rotate (g.stateOf p.1) p.2 := by
  rcases List.mem_map.mp hs with ⟨p, hp, hpe⟩
  exact ⟨p, hp, hpe.symm⟩

/-! ### The search-graph invariants

The spec's graph invariants, relative to the transition model: the
state/handle maps are mutually inverse on the registered range, edges
connect registered handles, agree with the transition model, and are
bidirectionally consistent. -/

structure EInv (tm : TransModel S k) (g : MState S k) : Prop where
  root_pos : 1 ≤ g.nStates
  idx_stateOf : ∀ h : ℕ, 1 ≤ h → h ≤ g.nStates → g.idx (g.stateOf h) = h
  idx_reg : ∀ s : S, g.idx s ≠ 0 →
    1 ≤ g.idx s ∧ g.idx s ≤ g.nStates ∧ g.stateOf (g.idx s) = s
  nb_src : ∀ (h : ℕ) (a : Fin k), g.neighbors h a ≠ 0 → 1 ≤ h ∧ h ≤ g.nStates
  nb_tgt : ∀ (h : ℕ) (a : Fin k), g.neighbors h a ≠ 0 →
    1 ≤ g.neighbors h a ∧ g.neighbors h a ≤ g.nStates
  nb_model : ∀ (h : ℕ) (a : Fin k), g.neighbors h a ≠ 0 →
    g.stateOf (g.neighbors h a) = tm.rotate (g.stateOf h) a
  nb_bidir : ∀ (h : ℕ) (a : Fin k), g.neighbors h a ≠ 0 →
    g.neighbors (g.neighbors h a) (tm.rev a) = h

/-- The usable direction of the leaf-flag invariant: a node marked
non-leaf has every neighbor slot wired (the other direction fails, see
C3). -/
def LeafOk (g : MState S k) : Prop :=
  ∀ (h : ℕ) (a : Fin k), g.leaves h = false → g.neighbors h a ≠ 0

/-- Every registered node's `V` entry is the oracle value of its
state. -/
def VOk (net : S → (Fin k → ℚ) × ℚ) (g : MState S k) : Prop :=
  ∀ h : ℕ, 1 ≤ h → h ≤ g.nStates → g.V h = (net (g.stateOf h)).2

/-- The edge the transition model prescribes from handle `h` under
action `b`, as registered in `g`'s index. -/
def modelEdge (tm : TransModel S k) (g : MState S k) (h : ℕ) (b : Fin k) : ℕ :=
  g.idx (tm.rotate (g.stateOf h) b)

/-- Slot `(h, b)` receives a forward write from the pair batch. -/
def TouchF (ps : List (ℕ × Fin k)) (h : ℕ) (b : Fin k) : Prop :=
  ∃ p ∈ ps, p.1 = h ∧ p.2 = b

/-- Slot `(h, b)` receives a reverse write from the pair batch. -/
def TouchR (tm : TransModel S k) (g : MState S k) (ps : List (ℕ × Fin k))
    (h : ℕ) (b : Fin k) : Prop :=
  ∃ p ∈ ps, modelEdge tm g p.1 p.2 = h ∧ tm.rev p.2 = b

/-- The combined forward-then-reverse edge writes of one batch of
`(source, action)` pairs (the two numpy fancy assignments of
`expand_leaves` and `_update_neighbors`). -/
def pairedWrites (tm : TransModel S k) (g : MState S k)
    (ps : List (ℕ × Fin k)) : MState S k :=
  applyNW (applyNW g (ps.map fun p => (p.1, p.2, modelEdge tm g p.1 p.2)))
    (ps.map fun p => (modelEdge tm g p.1 p.2, tm.rev p.2, p.1))

theorem pairedWrites_frame (tm : TransModel S k) (g : MState S k)
    (ps : List (ℕ × Fin k)) :
    (pairedWrites tm g ps).nStates = g.nStates ∧
    (pairedWrites tm g ps).stateOf = g.stateOf ∧
    (pairedWrites tm g ps).idx = g.idx ∧
    (pairedWrites tm g ps).leaves = g.leaves ∧
    (pairedWrites tm g ps).V = g.V ∧
    (pairedWrites tm g ps).P = g.P := by
  unfold pairedWrites
  refine ⟨?_, ?_, ?_, ?_, ?_, ?_⟩
  · rw [applyNW_nStates, applyNW_nStates]
  · rw [applyNW_stateOf, applyNW_stateOf]
  · rw [applyNW_idx, applyNW_idx]
  · rw [applyNW_leaves, applyNW_leaves]
  · rw [applyNW_V, applyNW_V]
  · rw [applyNW_P, applyNW_P]

/-- A reverse write landing on slot `(h, b)` carries exactly the
model edge of that slot. -/
theorem pw_rev_val (tm : TransModel S k) (g : MState S k) (ps : List (ℕ × Fin k))
    (hL : tm.Lawful) (hE : EInv tm g)
    (hsrc : ∀ p ∈ ps, 1 ≤ p.1 ∧ p.1 ≤ g.nStates)
    (hreg : ∀ p ∈ ps, modelEdge tm g p.1 p.2 ≠ 0)
    (p : ℕ × Fin k) (hp : p ∈ ps) (h : ℕ) (b : Fin k)
    (hh : modelEdge tm g p.1 p.2 = h) (hb : tm.rev p.2 = b) :
    p.1 = modelEdge tm g h b := by
  have hme : g.idx (tm.rotate (g.stateOf p.1) p.2) ≠ 0 := hreg p hp
  have hh' : g.idx (tm.rotate (g.stateOf p.1) p.2) = h := hh
  have hir := hE.idx_reg _ hme
  have hst : g.stateOf h = tm.rotate (g.stateOf p.1) p.2 := by
    have h2 := hir.2.2
    rw [hh'] at h2
    exact h2
  show p.1 = g.idx (tm.rotate (g.stateOf h) b)
  rw [← hb, hst, hL.rotate_rev]
  exact (hE.idx_stateOf p.1 (hsrc p hp).1 (hsrc p hp).2).symm

/-- A touched slot ends at its model edge. -/
theorem pw_written (tm : TransModel S k) (g : MState S k) (ps : List (ℕ × Fin k))
    (hL : tm.Lawful) (hE : EInv tm g)
    (hsrc : ∀ p ∈ ps, 1 ≤ p.1 ∧ p.1 ≤ g.nStates)
    (hreg : ∀ p ∈ ps, modelEdge tm g p.1 p.2 ≠ 0)
    (h : ℕ) (b : Fin k)
    (hw : TouchF ps h b ∨ TouchR tm g ps h b) :
    (pairedWrites tm g ps).neighbors h b = modelEdge tm g h b := by
  unfold pairedWrites
  by_cases hr : TouchR tm g ps h b
  · apply applyNW_uniform
    · rcases hr with ⟨p, hp, h1, h2⟩
      exact ⟨(modelEdge tm g p.1 p.2, tm.rev p.2, p.1),
        List.mem_map.mpr ⟨p, hp, rfl⟩, h1, h2⟩
    · intro w hw' h1 h2
      rcases List.mem_map.mp hw' with ⟨p, hp, hpe⟩
      subst hpe
      dsimp only at h1 h2 ⊢
      exact pw_rev_val tm g ps hL hE hsrc hreg p hp h b h1 h2
  · have hf : TouchF ps h b := hw.resolve_right hr
    rw [applyNW_skip]
    · apply applyNW_uniform
      · rcases hf with ⟨p, hp, h1, h2⟩
        exact ⟨(p.1, p.2, modelEdge tm g p.1 p.2),
          List.mem_map.mpr ⟨p, hp, rfl⟩, h1, h2⟩
      · intro w hw' h1 h2
        rcases List.mem_map.mp hw' with ⟨p, hp, hpe⟩
        subst hpe
        dsimp only at h1 h2 ⊢
        rw [h1, h2]
    · intro w hw' hc
      rcases List.mem_map.mp hw' with ⟨p, hp, hpe⟩
      subst hpe
      dsimp only at hc
      exact hr ⟨p, hp, hc.1, hc.2⟩

/-- An untouched slot keeps its value. -/
theorem pw_skip (tm : TransModel S k) (g : MState S k) (ps : List (ℕ × Fin k))
    (h : ℕ) (b : Fin k)
    (hw : ¬(TouchF ps h b ∨ TouchR tm g ps h b)) :
    (pairedWrites tm g ps).neighbors h b = g.neighbors h b := by
  unfold pairedWrites
  rw [applyNW_skip, applyNW_skip]
  · intro w hw' hc
    rcases List.mem_map.mp hw' with ⟨p, hp, hpe⟩
    subst hpe
    dsimp only at hc
    exact hw (Or.inl ⟨p, hp, hc.1, hc.2⟩)
  · intro w hw' hc
    rcases List.mem_map.mp hw' with ⟨p, hp, hpe⟩
    subst hpe
    dsimp only at hc
    exact hw (Or.inr ⟨p, hp, hc.1, hc.2⟩)

/-- A touched slot's model edge is registered, and the mirror slot is
touched as well. -/
theorem pw_mirror (tm : TransModel S k) (g : MState S k) (ps : List (ℕ × Fin k))
    (hL : tm.Lawful) (hE : EInv tm g)
    (hsrc : ∀ p ∈ ps, 1 ≤ p.1 ∧ p.1 ≤ g.nStates)
    (hreg : ∀ p ∈ ps, modelEdge tm g p.1 p.2 ≠ 0)
    (h : ℕ) (b : Fin k)
    (hw : TouchF ps h b ∨ TouchR tm g ps h b) :
    modelEdge tm g h b ≠ 0 ∧ 1 ≤ h ∧ h ≤ g.nStates ∧
    (TouchF ps (modelEdge tm g h b) (tm.rev b) ∨
      TouchR tm g ps (modelEdge tm g h b) (tm.rev b)) := by
  rcases hw with ⟨p, hp, h1, h2⟩ | ⟨p, hp, h1, h2⟩
  · have hme : modelEdge tm g h b = modelEdge tm g p.1 p.2 := by rw [← h1, ← h2]
    refine ⟨hme ▸ hreg p hp, h1 ▸ (hsrc p hp).1, h1 ▸ (hsrc p hp).2, Or.inr ?_⟩
    exact ⟨p, hp, hme.symm, by rw [h2]⟩
  · have hval := pw_rev_val tm g ps hL hE hsrc hreg p hp h b h1 h2
    have hh : g.idx (tm.rotate (g.stateOf p.1) p.2) ≠ 0 := hreg p hp
    have h1' : g.idx (tm.rotate (g.stateOf p.1) p.2) = h := h1
    have hir := hE.idx_reg _ hh
    rw [h1'] at hir
    refine ⟨?_, hir.1, hir.2.1, Or.inl ?_⟩
    · rw [← hval]
      have := (hsrc p hp).1
      omega
    · refine ⟨p, hp, hval, ?_⟩
      rw [← h2, hL.rev_rev]

/-- A slot wired before the batch stays wired. -/
theorem pw_mono (tm : TransModel S k) (g : MState S k) (ps : List (ℕ × Fin k))
    (hL : tm.Lawful) (hE : EInv tm g)
    (hsrc : ∀ p ∈ ps, 1 ≤ p.1 ∧ p.1 ≤ g.nStates)
    (hreg : ∀ p ∈ ps, modelEdge tm g p.1 p.2 ≠ 0)
    (h : ℕ) (b : Fin k) (hnz : g.neighbors h b ≠ 0) :
    (pairedWrites tm g ps).neighbors h b ≠ 0 := by
  by_cases hw : TouchF ps h b ∨ TouchR tm g ps h b
  · rw [pw_written tm g ps hL hE hsrc hreg h b hw]
    exact (pw_mirror tm g ps hL hE hsrc hreg h b hw).1
  · rw [pw_skip tm g ps h b hw]
    exact hnz

/-- The batch of edge writes preserves the whole graph invariant. -/
theorem pw_einv (tm : TransModel S k) (g : MState S k) (ps : List (ℕ × Fin k))
    (hL : tm.Lawful) (hE : EInv tm g)
    (hsrc : ∀ p ∈ ps, 1 ≤ p.1 ∧ p.1 ≤ g.nStates)
    (hreg : ∀ p ∈ ps, modelEdge tm g p.1 p.2 ≠ 0) :
    EInv tm (pairedWrites tm g ps) := by
  obtain ⟨hns, hst, hidx, -, -, -⟩ := pairedWrites_frame tm g ps
  have hwv := pw_written tm g ps hL hE hsrc hreg
  have hmir := pw_mirror tm g ps hL hE hsrc hreg
  have hsk := pw_skip tm g ps
  refine ⟨?_, ?_, ?_, ?_, ?_, ?_, ?_⟩
  · rw [hns]; exact hE.root_pos
  · intro h h1 h2
    rw [hns] at h2
    rw [hst, hidx]
    exact hE.idx_stateOf h h1 h2
  · intro s hs
    rw [hidx] at hs ⊢
    rw [hns, hst]
    exact hE.idx_reg s hs
  · intro h a hnz
    rw [hns]
    by_cases hw : TouchF ps h a ∨ TouchR tm g ps h a
    · exact ⟨(hmir h a hw).2.1, (hmir h a hw).2.2.1⟩
    · rw [hsk h a hw] at hnz
      exact hE.nb_src h a hnz
  · intro h a hnz
    rw [hns]
    by_cases hw : TouchF ps h a ∨ TouchR tm g ps h a
    · rw [hwv h a hw] at hnz ⊢
      exact ⟨(hE.idx_reg _ hnz).1, (hE.idx_reg _ hnz).2.1⟩
    · rw [hsk h a hw] at hnz ⊢
      exact hE.nb_tgt h a hnz
  · intro h a hnz
    rw [hst]
    by_cases hw : TouchF ps h a ∨ TouchR tm g ps h a
    · rw [hwv h a hw] at hnz ⊢
      exact (hE.idx_reg _ hnz).2.2
    · rw [hsk h a hw] at hnz ⊢
      exact hE.nb_model h a hnz
  · intro h a hnz
    by_cases hw : TouchF ps h a ∨ TouchR tm g ps h a
    · rw [hwv h a hw] at hnz ⊢
      have hm := hmir h a hw
      rw [hwv _ _ hm.2.2.2]
      have hnz' : g.idx (tm.rotate (g.stateOf h) a) ≠ 0 := hnz
      have hme : g.stateOf (g.idx (tm.rotate (g.stateOf h) a)) = tm.rotate (g.stateOf h) a :=
        (hE.idx_reg _ hnz').2.2
      show g.idx (tm.rotate (g.stateOf (g.idx (tm.rotate (g.stateOf h) a))) (tm.rev a)) = h
      rw [hme, hL.rotate_rev]
      exact hE.idx_stateOf h hm.2.1 hm.2.2.1
    · rw [hsk h a hw] at hnz ⊢
      by_cases hw2 : TouchF ps (g.neighbors h a) (tm.rev a) ∨
          TouchR tm g ps (g.neighbors h a) (tm.rev a)
      · rw [hwv _ _ hw2]
        show g.idx (tm.rotate (g.stateOf (g.neighbors h a)) (tm.rev a)) = h
        rw [hE.nb_model h a hnz, hL.rotate_rev]
        exact hE.idx_stateOf h (hE.nb_src h a hnz).1 (hE.nb_src h a hnz).2
      · rw [hsk _ _ hw2]
        exact hE.nb_bidir h a hnz

/-- The graph invariant only looks at `nStates`, `stateOf`, `idx` and
`neighbors`, so it transports along equality of those fields. -/
theorem einv_of_eq (tm : TransModel S k) (gA gB : MState S k)
    (h1 : gB.nStates = gA.nStates) (h2 : gB.stateOf = gA.stateOf)
    (h3 : gB.idx = gA.idx) (h4 : gB.neighbors = gA.neighbors)
    (hE : EInv tm gA) : EInv tm gB := by
  refine ⟨?_, ?_, ?_, ?_, ?_, ?_, ?_⟩
  · rw [h1]; exact hE.root_pos
  · intro h ha hb; rw [h1] at hb; rw [h2, h3]; exact hE.idx_stateOf h ha hb
  · intro s hs; rw [h3] at hs ⊢; rw [h1, h2]; exact hE.idx_reg s hs
  · intro h a hnz; rw [h4] at hnz; rw [h1]; exact hE.nb_src h a hnz
  · intro h a hnz; rw [h4] at hnz ⊢; rw [h1]; exact hE.nb_tgt h a hnz
  · intro h a hnz; rw [h4] at hnz ⊢; rw [h2]; exact hE.nb_model h a hnz
  · intro h a hnz; rw [h4] at hnz ⊢; exact hE.nb_bidir h a hnz

/-! ### `_update_neighbors` as a paired-write batch -/

/-- The `(source, action)` pairs `_update_neighbors(h)` wires: every
action whose successor is already registered. -/
def unPairs [NeZero k] (tm : TransModel S k) (g : MState S k) (h : ℕ) :
    List (ℕ × Fin k) :=
  ((List.finRange k).filter fun a => g.idx (tm.rotate (g.stateOf h) a) ≠ 0).map
    fun a => (h, a)

theorem updateNeighborsB_eq [DecidableEq S] [NeZero k] (tm : TransModel S k)
    (g : MState S k) (h : ℕ) :
    updateNeighborsB tm g h =
      (h :: ((List.finRange k).filter fun a =>
          g.idx (tm.rotate (g.stateOf h) a) ≠ 0).map
            fun a => g.idx (tm.rotate (g.stateOf h) a)).foldl
        (fun g' x => setLeaf g' x
          (allNeighSet (setLeaf (pairedWrites tm g (unPairs tm g h)) h false) x))
        (setLeaf (pairedWrites tm g (unPairs tm g h)) h false) := by
  unfold updateNeighborsB pairedWrites unPairs
  simp only [List.map_map]
  rfl

theorem updateNeighborsB_frame [DecidableEq S] [NeZero k] (tm : TransModel S k)
    (g : MState S k) (h : ℕ) :
    (updateNeighborsB tm g h).nStates = g.nStates ∧
    (updateNeighborsB tm g h).stateOf = g.stateOf ∧
    (updateNeighborsB tm g h).idx = g.idx ∧
    (updateNeighborsB tm g h).V = g.V ∧
    (updateNeighborsB tm g h).P = g.P ∧
    (updateNeighborsB tm g h).neighbors
      = (pairedWrites tm g (unPairs tm g h)).neighbors := by
  rw [updateNeighborsB_eq]
  obtain ⟨f1, f2, f3, f4, f5, f6⟩ := foldl_setLeaf_frame
    (allNeighSet (setLeaf (pairedWrites tm g (unPairs tm g h)) h false)) _
    (setLeaf (pairedWrites tm g (unPairs tm g h)) h false)
  obtain ⟨p1, p2, p3, _, p5, p6⟩ := pairedWrites_frame tm g (unPairs tm g h)
  refine ⟨?_, ?_, ?_, ?_, ?_, ?_⟩
  · rw [f1]; simp only [setLeaf]; exact p1
  · rw [f2]; simp only [setLeaf]; exact p2
  · rw [f3]; simp only [setLeaf]; exact p3
  · rw [f5]; simp only [setLeaf]; exact p5
  · rw [f6]; simp only [setLeaf]; exact p6
  · rw [f4]; simp only [setLeaf]

theorem unPairs_src [NeZero k] (tm : TransModel S k) (g : MState S k) (h : ℕ)
    (hh : 1 ≤ h ∧ h ≤ g.nStates) :
    ∀ p ∈ unPairs tm g h, 1 ≤ p.1 ∧ p.1 ≤ g.nStates := by
  intro p hp
  rcases List.mem_map.mp hp with ⟨a, _, hpe⟩
  rw [← hpe]
  exact hh

theorem unPairs_reg [NeZero k] (tm : TransModel S k) (g : MState S k) (h : ℕ) :
    ∀ p ∈ unPairs tm g h, modelEdge tm g p.1 p.2 ≠ 0 := by
  intro p hp
  rcases List.mem_map.mp hp with ⟨a, ha, hpe⟩
  rcases List.mem_filter.mp ha with ⟨-, hprop⟩
  rw [← hpe]
  simpa using hprop

/-- `_update_neighbors` preserves the graph invariant (the leaf flags it
sets are not part of `EInv`; the inverted assignment of line 361 of
search.py only corrupts `leaves`, see C3). -/
theorem updateNeighborsB_einv [DecidableEq S] [NeZero k] (tm : TransModel S k)
    (g : MState S k) (h : ℕ) (hL : tm.Lawful) (hE : EInv tm g)
    (hh : 1 ≤ h ∧ h ≤ g.nStates) : EInv tm (updateNeighborsB tm g h) := by
  obtain ⟨f1, f2, f3, -, -, f6⟩ := updateNeighborsB_frame tm g h
  obtain ⟨p1, p2, p3, -, -, -⟩ := pairedWrites_frame tm g (unPairs tm g h)
  apply einv_of_eq tm (pairedWrites tm g (unPairs tm g h))
  · rw [f1, p1]
  · rw [f2, p2]
  · rw [f3, p3]
  · exact f6
  · exact pw_einv tm g (unPairs tm g h) hL hE (unPairs_src tm g h hh) (unPairs_reg tm g h)

/-! ### The phased form of `expand_leaves`'s body -/

/-- Phase 1 of the body: registration of the unseen last occurrences. -/
def regPhase [DecidableEq S] [NeZero k] (tm : TransModel S k)
    (g g1 : MState S k) (lvs : List ℕ) : MState S k :=
  (newUnseen g1.idx (subList tm g lvs)).foldl registerState g1

/-- Phase 2: the forward and reverse edge writes. -/
def edgePhase [DecidableEq S] [NeZero k] (tm : TransModel S k)
    (g g1 : MState S k) (lvs : List ℕ) : MState S k :=
  pairedWrites tm (regPhase tm g g1 lvs) (tripList lvs)

/-- Phase 3: the oracle policy/value writes for the new states. -/
def pvPhase [DecidableEq S] [NeZero k] (tm : TransModel S k)
    (net : S → (Fin k → ℚ) × ℚ) (g g1 : MState S k) (lvs : List ℕ) :
    MState S k :=
  (newUnseen g1.idx (subList tm g lvs)).foldl
    (fun g' s => setPV g' ((regPhase tm g g1 lvs).idx s) (net s).1 (net s).2)
    (edgePhase tm g g1 lvs)

/-- Phase 4: the leaf-flag writes of the batch and of the completed old
states. -/
def lvPhase [DecidableEq S] [NeZero k] (tm : TransModel S k)
    (net : S → (Fin k → ℚ) × ℚ) (g g1 : MState S k) (lvs : List ℕ) :
    MState S k :=
  let g6 := lvs.foldl (fun g' l => setLeaf g' l false) (pvPhase tm net g g1 lvs)
  (((lastSeen g1.idx (subList tm g lvs)).map (regPhase tm g g1 lvs).idx).filter
      fun o => allNeighSet g6 o).foldl (fun g' o => setLeaf g' o false) g6

/-- `expandBody` re-expressed through `pairedWrites` and `applyWW`; the
proofs work over this form. -/
def expandPhased [DecidableEq S] [NeZero k] (tm : TransModel S k)
    (net : S → (Fin k → ℚ) × ℚ) (g g1 : MState S k) (lvs : List ℕ) :
    MState S k :=
  let g7 := lvPhase tm net g g1 lvs
  applyWW g7 (lvs.flatMap fun l => (List.finRange k).map fun a =>
      (g7.neighbors l a, tm.rev a,
        qMax ((List.finRange k).map fun b => g7.V (g7.neighbors l b))))

/-- Registering a batch of fresh, pairwise distinct states preserves the
graph invariant. -/
theorem registerAll_einv [DecidableEq S] (tm : TransModel S k) (g1 : MState S k)
    (xs : List S) (hE1 : EInv tm g1) (hu : ∀ s ∈ xs, g1.idx s = 0)
    (hnd : xs.Nodup) : EInv tm (xs.foldl registerState g1) := by
  obtain ⟨fnb, flv, -, -⟩ := registerAll_frame xs g1
  have hns := registerAll_nStates xs g1
  refine ⟨?_, ?_, ?_, ?_, ?_, ?_, ?_⟩
  · rw [hns]; have := hE1.root_pos; omega
  · intro h h1 h2
    rw [hns] at h2
    by_cases hlow : h ≤ g1.nStates
    · rw [registerAll_stateOf_low xs g1 h hlow]
      have hidx := hE1.idx_stateOf h h1 hlow
      have hnm : g1.stateOf h ∉ xs := by
        intro hmem
        rw [hu _ hmem] at hidx
        omega
      rw [registerAll_idx_of_not_mem xs g1 _ hnm]
      exact hidx
    · rcases registerAll_surj xs g1 h hnd (by omega) (by omega) with ⟨s, _, hi, hst⟩
      rw [hst, hi]
  · intro s hs
    by_cases hmem : s ∈ xs
    · obtain ⟨h1, h2, h3⟩ := registerAll_mem xs g1 s hmem hnd
      rw [hns]
      exact ⟨by omega, h2, h3⟩
    · rw [registerAll_idx_of_not_mem xs g1 s hmem] at hs ⊢
      obtain ⟨h1, h2, h3⟩ := hE1.idx_reg s hs
      rw [hns, registerAll_stateOf_low xs g1 _ h2]
      exact ⟨h1, by omega, h3⟩
  · intro h a hnz
    rw [fnb] at hnz
    have := hE1.nb_src h a hnz
    rw [hns]
    omega
  · intro h a hnz
    rw [fnb] at hnz ⊢
    have := hE1.nb_tgt h a hnz
    rw [hns]
    omega
  · intro h a hnz
    rw [fnb] at hnz ⊢
    have hsrc := hE1.nb_src h a hnz
    have htgt := hE1.nb_tgt h a hnz
    rw [registerAll_stateOf_low xs g1 _ htgt.2, registerAll_stateOf_low xs g1 _ hsrc.2]
    exact hE1.nb_model h a hnz
  · intro h a hnz
    rw [fnb] at hnz ⊢
    exact hE1.nb_bidir h a hnz

/-- After the unseen last occurrences of the batch are registered, every
substate of the batch is registered with a consistent index. -/
theorem substates_registered [DecidableEq S] [NeZero k] (tm : TransModel S k)
    (g g1 : MState S k) (lvs : List ℕ) (_hidx1 : g1.idx = g.idx)
    (hE1 : EInv tm g1) (s : S) (hs : s ∈ subList tm g lvs) :
    1 ≤ (regPhase tm g g1 lvs).idx s ∧
    (regPhase tm g g1 lvs).idx s ≤ (regPhase tm g g1 lvs).nStates ∧
    (regPhase tm g g1 lvs).stateOf ((regPhase tm g g1 lvs).idx s) = s := by
  unfold regPhase
  set sub := subList tm g lvs
  set xs := newUnseen g1.idx sub with hxs
  have hnd : xs.Nodup := newUnseen_nodup g1.idx sub
  have hns := registerAll_nStates xs g1
  by_cases h0 : g1.idx s = 0
  · have hmem : s ∈ xs := mem_newUnseen g1.idx sub s hs h0
    obtain ⟨h1, h2, h3⟩ := registerAll_mem xs g1 s hmem hnd
    exact ⟨by omega, by omega, h3⟩
  · have hmem : s ∉ xs := fun hmem => h0 (newUnseen_sub g1.idx sub s hmem).2
    rw [registerAll_idx_of_not_mem xs g1 s hmem]
    obtain ⟨h1, h2, h3⟩ := hE1.idx_reg s h0
    rw [registerAll_stateOf_low xs g1 _ h2]
    exact ⟨h1, by omega, h3⟩

theorem expandBody_eq_phased [DecidableEq S] [NeZero k] (tm : TransModel S k)
    (net : S → (Fin k → ℚ) × ℚ) (g g1 : MState S k) (lvs : List ℕ)
    (hst1 : g1.stateOf = g.stateOf) (hns1 : g1.nStates = g.nStates)
    (hlvs : ∀ l ∈ lvs, 1 ≤ l ∧ l ≤ g.nStates) :
    expandBody tm net g g1 lvs = expandPhased tm net g g1 lvs := by
  simp only [expandBody, expandPhased, lvPhase, pvPhase, edgePhase, regPhase]
  have hg2st : ∀ l ∈ lvs,
      ((newUnseen g1.idx (subList tm g lvs)).foldl registerState g1).stateOf l
        = g.stateOf l := by
    intro l hl
    rw [registerAll_stateOf_low _ g1 l (by rw [hns1]; exact (hlvs l hl).2), hst1]
  have hfwd : ((tripList lvs : List (ℕ × Fin k))).map (fun p => (p.1, p.2,
        ((newUnseen g1.idx (subList tm g lvs)).foldl registerState g1).idx
          (tm.rotate (g.stateOf p.1) p.2)))
      = ((tripList lvs : List (ℕ × Fin k))).map fun p => (p.1, p.2,
          modelEdge tm ((newUnseen g1.idx (subList tm g lvs)).foldl registerState g1) p.1 p.2 ) := by
    apply List.map_congr_left
    intro p hp
    unfold modelEdge
    rw [hg2st p.1 (tripList_fst_mem lvs p hp)]
  have hrev : ((tripList lvs : List (ℕ × Fin k))).map (fun p =>
        (((newUnseen g1.idx (subList tm g lvs)).foldl registerState g1).idx
          (tm.rotate (g.stateOf p.1) p.2), tm.rev p.2, p.1))
      = ((tripList lvs : List (ℕ × Fin k))).map fun p =>
          (modelEdge tm ((newUnseen g1.idx (subList tm g lvs)).foldl registerState g1) p.1 p.2,
            tm.rev p.2, p.1) := by
    apply List.map_congr_left
    intro p hp
    unfold modelEdge
    rw [hg2st p.1 (tripList_fst_mem lvs p hp)]
  rw [hfwd, hrev]
  rw [wPhase_flatten]
  rfl

/-- The hypotheses shared by the phase lemmas: a lawful transition
model, a scan store `g1` that differs from `g` (the store the successor
batch was read from) only in `neighbors`/`leaves`, the invariant on
`g1`, and a batch of registered leaf handles. -/
structure BodyHyps (tm : TransModel S k) (g g1 : MState S k) (lvs : List ℕ) : Prop where
  hL : tm.Lawful
  hidx1 : g1.idx = g.idx
  hst1 : g1.stateOf = g.stateOf
  hns1 : g1.nStates = g.nStates
  hE1 : EInv tm g1
  hlvs : ∀ l ∈ lvs, 1 ≤ l ∧ l ≤ g.nStates

theorem regPhase_nStates [DecidableEq S] [NeZero k] (tm : TransModel S k)
    (g g1 : MState S k) (lvs : List ℕ) :
    (regPhase tm g g1 lvs).nStates
      = g1.nStates + (newUnseen g1.idx (subList tm g lvs)).length :=
  registerAll_nStates _ g1

theorem einv_regPhase [DecidableEq S] [NeZero k] (tm : TransModel S k)
    (g g1 : MState S k) (lvs : List ℕ) (hE1 : EInv tm g1) :
    EInv tm (regPhase tm g g1 lvs) :=
  registerAll_einv tm g1 _ hE1
    (fun s hs => (newUnseen_sub g1.idx _ s hs).2)
    (newUnseen_nodup g1.idx _)

theorem regPhase_stateOf_lvs [DecidableEq S] [NeZero k] (tm : TransModel S k)
    (g g1 : MState S k) (lvs : List ℕ) (H : BodyHyps tm g g1 lvs) (l : ℕ)
    (hl : l ∈ lvs) : (regPhase tm g g1 lvs).stateOf l = g.stateOf l := by
  rw [regPhase, registerAll_stateOf_low _ g1 l (by rw [H.hns1]; exact (H.hlvs l hl).2), H.hst1]

theorem edge_src [DecidableEq S] [NeZero k] (tm : TransModel S k)
    (g g1 : MState S k) (lvs : List ℕ) (H : BodyHyps tm g g1 lvs) :
    ∀ p ∈ (tripList lvs : List (ℕ × Fin k)), 1 ≤ p.1 ∧ p.1 ≤ (regPhase tm g g1 lvs).nStates := by
  intro p hp
  have hl := tripList_fst_mem lvs p hp
  have := H.hlvs p.1 hl
  rw [regPhase_nStates, H.hns1]
  omega

theorem edge_reg [DecidableEq S] [NeZero k] (tm : TransModel S k)
    (g g1 : MState S k) (lvs : List ℕ) (H : BodyHyps tm g g1 lvs) :
    ∀ p ∈ (tripList lvs : List (ℕ × Fin k)),
      modelEdge tm (regPhase tm g g1 lvs) p.1 p.2 ≠ 0 := by
  intro p hp
  have hl := tripList_fst_mem lvs p hp
  have hst := regPhase_stateOf_lvs tm g g1 lvs H p.1 hl
  have hmem : tm.rotate (g.stateOf p.1) p.2 ∈ subList tm g lvs :=
    mem_subList tm g lvs p.1 p.2 hl
  have hsr := substates_registered tm g g1 lvs H.hidx1 H.hE1 _ hmem
  show (regPhase tm g g1 lvs).idx
    (tm.rotate ((regPhase tm g g1 lvs).stateOf p.1) p.2) ≠ 0
  rw [hst]
  have h1 := hsr.1
  omega

theorem einv_edgePhase [DecidableEq S] [NeZero k] (tm : TransModel S k)
    (g g1 : MState S k) (lvs : List ℕ) (H : BodyHyps tm g g1 lvs) :
    EInv tm (edgePhase tm g g1 lvs) :=
  pw_einv tm _ _ H.hL (einv_regPhase tm g g1 lvs H.hE1)
    (edge_src tm g g1 lvs H) (edge_reg tm g g1 lvs H)

/-- After the edge phase, every slot of every expanded leaf is wired to
the model edge of its action. -/
theorem edgePhase_leafWired [DecidableEq S] [NeZero k] (tm : TransModel S k)
    (g g1 : MState S k) (lvs : List ℕ) (H : BodyHyps tm g g1 lvs)
    (l : ℕ) (hl : l ∈ lvs) (a : Fin k) :
    (edgePhase tm g g1 lvs).neighbors l a
        = modelEdge tm (regPhase tm g g1 lvs) l a ∧
      (edgePhase tm g g1 lvs).neighbors l a ≠ 0 := by
  unfold edgePhase
  have hw : TouchF ((tripList lvs : List (ℕ × Fin k))) l a ∨
      TouchR tm (regPhase tm g g1 lvs) ((tripList lvs : List (ℕ × Fin k))) l a :=
    Or.inl ⟨(l, a), mem_tripList lvs l a hl, rfl, rfl⟩
  have h1 := pw_written tm _ _ H.hL (einv_regPhase tm g g1 lvs H.hE1)
    (edge_src tm g g1 lvs H) (edge_reg tm g g1 lvs H) l a hw
  refine ⟨h1, ?_⟩
  rw [h1]
  exact edge_reg tm g g1 lvs H (l, a) (mem_tripList lvs l a hl)

theorem edgePhase_mono [DecidableEq S] [NeZero k] (tm : TransModel S k)
    (g g1 : MState S k) (lvs : List ℕ) (H : BodyHyps tm g g1 lvs)
    (h : ℕ) (a : Fin k) (hnz : g1.neighbors h a ≠ 0) :
    (edgePhase tm g g1 lvs).neighbors h a ≠ 0 := by
  unfold edgePhase
  apply pw_mono tm _ _ H.hL (einv_regPhase tm g g1 lvs H.hE1)
    (edge_src tm g g1 lvs H) (edge_reg tm g g1 lvs H)
  rw [regPhase, (registerAll_frame _ g1).1]
  exact hnz

theorem pvPhase_frame [DecidableEq S] [NeZero k] (tm : TransModel S k)
    (net : S → (Fin k → ℚ) × ℚ) (g g1 : MState S k) (lvs : List ℕ) :
    (pvPhase tm net g g1 lvs).nStates = (edgePhase tm g g1 lvs).nStates ∧
    (pvPhase tm net g g1 lvs).stateOf = (edgePhase tm g g1 lvs).stateOf ∧
    (pvPhase tm net g g1 lvs).idx = (edgePhase tm g g1 lvs).idx ∧
    (pvPhase tm net g g1 lvs).neighbors = (edgePhase tm g g1 lvs).neighbors ∧
    (pvPhase tm net g g1 lvs).leaves = (edgePhase tm g g1 lvs).leaves :=
  foldl_setPV_frame (regPhase tm g g1 lvs).idx net _ _

/-- The index of a registered new state lies above the pre-registration
range, and the indices of the new states are pairwise distinct. -/
theorem regPhase_new_idx [DecidableEq S] [NeZero k] (tm : TransModel S k)
    (g g1 : MState S k) (lvs : List ℕ) (s : S)
    (hs : s ∈ newUnseen g1.idx (subList tm g lvs)) :
    g1.nStates < (regPhase tm g g1 lvs).idx s ∧
    (regPhase tm g g1 lvs).idx s ≤ (regPhase tm g g1 lvs).nStates ∧
    (regPhase tm g g1 lvs).stateOf ((regPhase tm g g1 lvs).idx s) = s := by
  have h := registerAll_mem (newUnseen g1.idx (subList tm g lvs)) g1 s hs
    (newUnseen_nodup g1.idx _)
  rw [regPhase_nStates]
  exact ⟨h.1, h.2.1, h.2.2⟩

theorem regPhase_new_inj [DecidableEq S] [NeZero k] (tm : TransModel S k)
    (g g1 : MState S k) (lvs : List ℕ) (s y : S)
    (hs : s ∈ newUnseen g1.idx (subList tm g lvs))
    (hy : y ∈ newUnseen g1.idx (subList tm g lvs))
    (he : (regPhase tm g g1 lvs).idx y = (regPhase tm g g1 lvs).idx s) : y = s := by
  have h1 := (regPhase_new_idx tm g g1 lvs s hs).2.2
  have h2 := (regPhase_new_idx tm g g1 lvs y hy).2.2
  rw [he] at h2
  rw [← h1, ← h2]

/-- The value written in the PV phase for each new state is the oracle
value. -/
theorem pvPhase_V_new [DecidableEq S] [NeZero k] (tm : TransModel S k)
    (net : S → (Fin k → ℚ) × ℚ) (g g1 : MState S k) (lvs : List ℕ) (s : S)
    (hs : s ∈ newUnseen g1.idx (subList tm g lvs)) :
    (pvPhase tm net g g1 lvs).V ((regPhase tm g g1 lvs).idx s) = (net s).2 := by
  unfold pvPhase
  exact foldl_setPV_V_mem (regPhase tm g g1 lvs).idx net _ _ s hs
    (fun y hy he => regPhase_new_inj tm g g1 lvs s y hs hy he)

/-- The PV phase restores the oracle-value invariant for the grown
store. -/
theorem pvPhase_vok [DecidableEq S] [NeZero k] (tm : TransModel S k)
    (net : S → (Fin k → ℚ) × ℚ) (g g1 : MState S k) (lvs : List ℕ)
    (hV : VOk net g1) :
    ∀ h : ℕ, 1 ≤ h → h ≤ (regPhase tm g g1 lvs).nStates →
      (pvPhase tm net g g1 lvs).V h
        = (net ((regPhase tm g g1 lvs).stateOf h)).2 := by
  intro h h1 h2
  obtain ⟨e1, e2, -, -, -, -⟩ := pairedWrites_frame tm (regPhase tm g g1 lvs) (tripList lvs)
  by_cases hlow : h ≤ g1.nStates
  · have hskip : (pvPhase tm net g g1 lvs).V h = (edgePhase tm g g1 lvs).V h := by
      unfold pvPhase
      apply foldl_setPV_V_skip
      intro x hx hc
      have := (regPhase_new_idx tm g g1 lvs x hx).1
      omega
    rw [hskip]
    have hVe : (edgePhase tm g g1 lvs).V = (regPhase tm g g1 lvs).V :=
      (pairedWrites_frame tm (regPhase tm g g1 lvs) (tripList lvs)).2.2.2.2.1
    have hVr : (regPhase tm g g1 lvs).V = g1.V := (registerAll_frame _ g1).2.2.1
    rw [hVe, hVr]
    rw [regPhase, registerAll_stateOf_low _ g1 h hlow]
    exact hV h h1 hlow
  · rcases registerAll_surj (newUnseen g1.idx (subList tm g lvs)) g1 h
      (newUnseen_nodup g1.idx _) (by omega)
      (by rw [regPhase_nStates] at h2; exact h2) with ⟨s, hsmem, hsidx, hsst⟩
    have hmem := pvPhase_V_new tm net g g1 lvs s hsmem
    have hsidx' : (regPhase tm g g1 lvs).idx s = h := hsidx
    rw [hsidx'] at hmem
    rw [hmem]
    have hsst' : (regPhase tm g g1 lvs).stateOf h = s := hsst
    rw [hsst']

/-- The leaf phase only writes `false` flags; a `false` flag afterwards
means the handle was an expanded leaf, a completed old state, or was
already `false`. -/
theorem lvPhase_leaf_false [DecidableEq S] [NeZero k] (tm : TransModel S k)
    (net : S → (Fin k → ℚ) × ℚ) (g g1 : MState S k) (lvs : List ℕ) (h : ℕ)
    (hf : (lvPhase tm net g g1 lvs).leaves h = false) :
    (∀ a : Fin k, (edgePhase tm g g1 lvs).neighbors h a ≠ 0) ∨
      h ∈ lvs ∨ g1.leaves h = false := by
  unfold lvPhase at hf
  rw [foldl_setLeaf_leaves (fun _ => false)] at hf
  by_cases hmem : h ∈ (((lastSeen g1.idx (subList tm g lvs)).map
      (regPhase tm g g1 lvs).idx).filter fun o => allNeighSet
        (lvs.foldl (fun g' l => setLeaf g' l false) (pvPhase tm net g g1 lvs)) o)
  · left
    have hall := (List.mem_filter.mp hmem).2
    intro a
    have h6 : (lvs.foldl (fun g' l => setLeaf g' l false)
        (pvPhase tm net g g1 lvs)).neighbors = (edgePhase tm g g1 lvs).neighbors := by
      have := (foldl_setLeaf_frame (fun _ => false) lvs (pvPhase tm net g g1 lvs)).2.2.2.1
      rw [this]
      exact (pvPhase_frame tm net g g1 lvs).2.2.2.1
    unfold allNeighSet at hall
    rw [List.all_eq_true] at hall
    have := hall a (List.mem_finRange a)
    rw [h6] at this
    simpa using this
  · rw [if_neg hmem] at hf
    rw [foldl_setLeaf_leaves (fun _ => false)] at hf
    by_cases hmem2 : h ∈ lvs
    · right; left; exact hmem2
    · right; right
      rw [if_neg hmem2] at hf
      have h5 : (pvPhase tm net g g1 lvs).leaves = g1.leaves := by
        rw [(pvPhase_frame tm net g g1 lvs).2.2.2.2]
        unfold edgePhase
        rw [(pairedWrites_frame tm (regPhase tm g g1 lvs) (tripList lvs)).2.2.2.1]
        unfold regPhase
        exact (registerAll_frame _ g1).2.1
      rw [h5] at hf
      exact hf

theorem lvPhase_frame [DecidableEq S] [NeZero k] (tm : TransModel S k)
    (net : S → (Fin k → ℚ) × ℚ) (g g1 : MState S k) (lvs : List ℕ) :
    (lvPhase tm net g g1 lvs).nStates = (pvPhase tm net g g1 lvs).nStates ∧
    (lvPhase tm net g g1 lvs).stateOf = (pvPhase tm net g g1 lvs).stateOf ∧
    (lvPhase tm net g g1 lvs).idx = (pvPhase tm net g g1 lvs).idx ∧
    (lvPhase tm net g g1 lvs).neighbors = (pvPhase tm net g g1 lvs).neighbors ∧
    (lvPhase tm net g g1 lvs).V = (pvPhase tm net g g1 lvs).V := by
  unfold lvPhase
  obtain ⟨a1, a2, a3, a4, a5, -⟩ := foldl_setLeaf_frame (fun _ => false) lvs
    (pvPhase tm net g g1 lvs)
  obtain ⟨b1, b2, b3, b4, b5, -⟩ := foldl_setLeaf_frame (fun _ => false)
    ((((lastSeen g1.idx (subList tm g lvs)).map (regPhase tm g g1 lvs).idx).filter
      fun o => allNeighSet (lvs.foldl (fun g' l => setLeaf g' l false)
        (pvPhase tm net g g1 lvs)) o))
    (lvs.foldl (fun g' l => setLeaf g' l false) (pvPhase tm net g g1 lvs))
  exact ⟨by rw [b1, a1], by rw [b2, a2], by rw [b3, a3], by rw [b4, a4], by rw [b5, a5]⟩

/-- Field projections of the full body output. -/
theorem expandPhased_proj [DecidableEq S] [NeZero k] (tm : TransModel S k)
    (net : S → (Fin k → ℚ) × ℚ) (g g1 : MState S k) (lvs : List ℕ) :
    (expandPhased tm net g g1 lvs).nStates = (regPhase tm g g1 lvs).nStates ∧
    (expandPhased tm net g g1 lvs).stateOf = (regPhase tm g g1 lvs).stateOf ∧
    (expandPhased tm net g g1 lvs).idx = (regPhase tm g g1 lvs).idx ∧
    (expandPhased tm net g g1 lvs).neighbors = (edgePhase tm g g1 lvs).neighbors ∧
    (expandPhased tm net g g1 lvs).V = (pvPhase tm net g g1 lvs).V ∧
    (expandPhased tm net g g1 lvs).leaves = (lvPhase tm net g g1 lvs).leaves := by
  unfold expandPhased
  obtain ⟨w1, w2, w3, w4, w5, w6, -⟩ := applyWW_frame
    (lvs.flatMap fun l => (List.finRange k).map fun a =>
      ((lvPhase tm net g g1 lvs).neighbors l a, tm.rev a,
        qMax ((List.finRange k).map fun b => (lvPhase tm net g g1 lvs).V
          ((lvPhase tm net g g1 lvs).neighbors l b))))
    (lvPhase tm net g g1 lvs)
  obtain ⟨l1, l2, l3, l4, l5⟩ := lvPhase_frame tm net g g1 lvs
  obtain ⟨p1, p2, p3, p4, -⟩ := pvPhase_frame tm net g g1 lvs
  obtain ⟨e1, e2, e3, -, -, -⟩ := pairedWrites_frame tm (regPhase tm g g1 lvs) (tripList lvs)
  have he1 : (edgePhase tm g g1 lvs).nStates = (regPhase tm g g1 lvs).nStates := e1
  have he2 : (edgePhase tm g g1 lvs).stateOf = (regPhase tm g g1 lvs).stateOf := e2
  have he3 : (edgePhase tm g g1 lvs).idx = (regPhase tm g g1 lvs).idx := e3
  refine ⟨?_, ?_, ?_, ?_, ?_, ?_⟩
  · rw [w1, l1, p1, he1]
  · rw [w2, l2, p2, he2]
  · rw [w3, l3, p3, he3]
  · rw [w4, l4, p4]
  · rw [w6, l5]
  · rw [w5]

/-- The body of `expand_leaves` preserves the graph invariant. -/
theorem einv_expandPhased [DecidableEq S] [NeZero k] (tm : TransModel S k)
    (net : S → (Fin k → ℚ) × ℚ) (g g1 : MState S k) (lvs : List ℕ)
    (H : BodyHyps tm g g1 lvs) : EInv tm (expandPhased tm net g g1 lvs) := by
  obtain ⟨q1, q2, q3, q4, -, -⟩ := expandPhased_proj tm net g g1 lvs
  obtain ⟨e1, e2, e3, -, -, -⟩ := pairedWrites_frame tm (regPhase tm g g1 lvs) (tripList lvs)
  apply einv_of_eq tm (edgePhase tm g g1 lvs)
  · rw [q1]; exact e1.symm
  · rw [q2]; exact e2.symm
  · rw [q3]; exact e3.symm
  · exact q4
  · exact einv_edgePhase tm g g1 lvs H

/-- The body of `expand_leaves` preserves the usable direction of the
leaf-flag invariant. -/
theorem expandPhased_leafok [DecidableEq S] [NeZero k] (tm : TransModel S k)
    (net : S → (Fin k → ℚ) × ℚ) (g g1 : MState S k) (lvs : List ℕ)
    (H : BodyHyps tm g g1 lvs) (hLO : LeafOk g1) :
    LeafOk (expandPhased tm net g g1 lvs) := by
  obtain ⟨-, -, -, q4, -, q6⟩ := expandPhased_proj tm net g g1 lvs
  intro h a hf
  rw [q6] at hf
  rw [q4]
  rcases lvPhase_leaf_false tm net g g1 lvs h hf with hall | hmem | hold
  · exact hall a
  · exact (edgePhase_leafWired tm g g1 lvs H h hmem a).2
  · exact edgePhase_mono tm g g1 lvs H h a (hLO h a hold)

/-- The body of `expand_leaves` preserves the oracle-value invariant. -/
theorem expandPhased_vok [DecidableEq S] [NeZero k] (tm : TransModel S k)
    (net : S → (Fin k → ℚ) × ℚ) (g g1 : MState S k) (lvs : List ℕ)
    (hV : VOk net g1) : VOk net (expandPhased tm net g g1 lvs) := by
  obtain ⟨q1, q2, -, -, q5, -⟩ := expandPhased_proj tm net g g1 lvs
  intro h h1 h2
  rw [q1] at h2
  rw [q2, q5]
  exact pvPhase_vok tm net g g1 lvs hV h h1 h2

/-- States registered before the body keep their stored state. -/
theorem expandPhased_stateOf_low [DecidableEq S] [NeZero k] (tm : TransModel S k)
    (net : S → (Fin k → ℚ) × ℚ) (g g1 : MState S k) (lvs : List ℕ)
    (hst1 : g1.stateOf = g.stateOf) (hns1 : g1.nStates = g.nStates)
    (h : ℕ) (hh : h ≤ g.nStates) :
    (expandPhased tm net g g1 lvs).stateOf h = g.stateOf h := by
  rw [(expandPhased_proj tm net g g1 lvs).2.1, regPhase,
    registerAll_stateOf_low _ g1 h (by rw [hns1]; exact hh), hst1]

/-- The store only grows. -/
theorem expandPhased_nStates_ge [DecidableEq S] [NeZero k] (tm : TransModel S k)
    (net : S → (Fin k → ℚ) × ℚ) (g g1 : MState S k) (lvs : List ℕ)
    (hns1 : g1.nStates = g.nStates) :
    g.nStates ≤ (expandPhased tm net g g1 lvs).nStates := by
  rw [(expandPhased_proj tm net g g1 lvs).1, regPhase_nStates, hns1]
  omega

/-- The backed-up `W` entries after the body: for every expanded leaf
`l` and action `a`, the reverse edge of the neighbor reached by `a`
holds the maximum `V` over all of `l`'s neighbors. -/
theorem expandPhased_W [DecidableEq S] [NeZero k] (tm : TransModel S k)
    (net : S → (Fin k → ℚ) × ℚ) (g g1 : MState S k) (lvs : List ℕ)
    (H : BodyHyps tm g g1 lvs) (l : ℕ) (hl : l ∈ lvs) (a : Fin k) :
    (expandPhased tm net g g1 lvs).W
        ((expandPhased tm net g g1 lvs).neighbors l a) (tm.rev a)
      = qMax ((List.finRange k).map fun b =>
          (expandPhased tm net g g1 lvs).V
            ((expandPhased tm net g g1 lvs).neighbors l b)) := by
  obtain ⟨-, -, -, q4, q5, -⟩ := expandPhased_proj tm net g g1 lvs
  obtain ⟨-, -, -, l4, l5⟩ := lvPhase_frame tm net g g1 lvs
  obtain ⟨-, -, -, p4, -⟩ := pvPhase_frame tm net g g1 lvs
  have hnb7 : (lvPhase tm net g g1 lvs).neighbors = (edgePhase tm g g1 lvs).neighbors := by
    rw [l4, p4]
  have hnbO : (expandPhased tm net g g1 lvs).neighbors
      = (lvPhase tm net g g1 lvs).neighbors := by rw [q4, hnb7]
  have hVO : (expandPhased tm net g g1 lvs).V = (lvPhase tm net g g1 lvs).V := by
    rw [q5, l5]
  have hE2 := einv_regPhase tm g g1 lvs H.hE1
  -- injectivity of the wired edges over the expanded leaves
  have hinj : ∀ l' ∈ lvs, ∀ b : Fin k,
      (lvPhase tm net g g1 lvs).neighbors l' b
          = (lvPhase tm net g g1 lvs).neighbors l a → tm.rev b = tm.rev a → l' = l := by
    intro l' hl' b hnb hrb
    have hb : b = a := H.hL.rev_inj hrb
    subst hb
    rw [hnb7] at hnb
    have h1 := edgePhase_leafWired tm g g1 lvs H l hl b
    have h2 := edgePhase_leafWired tm g g1 lvs H l' hl' b
    rw [h1.1] at hnb
    rw [h2.1] at hnb
    have hnz1 : (regPhase tm g g1 lvs).idx
        (tm.rotate ((regPhase tm g g1 lvs).stateOf l) b) ≠ 0 := by
      have := h1.2; rw [h1.1] at this; exact this
    have hnz2 : (regPhase tm g g1 lvs).idx
        (tm.rotate ((regPhase tm g g1 lvs).stateOf l') b) ≠ 0 := by
      have := h2.2; rw [h2.1] at this; exact this
    have hs1 := (hE2.idx_reg _ hnz1).2.2
    have hs2 := (hE2.idx_reg _ hnz2).2.2
    have hnb' : (regPhase tm g g1 lvs).idx
        (tm.rotate ((regPhase tm g g1 lvs).stateOf l') b)
        = (regPhase tm g g1 lvs).idx
          (tm.rotate ((regPhase tm g g1 lvs).stateOf l) b) := hnb
    rw [hnb'] at hs2
    have hrot : tm.rotate ((regPhase tm g g1 lvs).stateOf l') b
        = tm.rotate ((regPhase tm g g1 lvs).stateOf l) b := by
      rw [← hs1, ← hs2]
    have hst : (regPhase tm g g1 lvs).stateOf l'
        = (regPhase tm g g1 lvs).stateOf l := H.hL.rotate_inj hrot
    have hreg1 : (regPhase tm g g1 lvs).idx ((regPhase tm g g1 lvs).stateOf l) = l := by
      apply hE2.idx_stateOf l (H.hlvs l hl).1
      rw [regPhase_nStates]
      have := (H.hlvs l hl).2
      rw [← H.hns1] at this
      omega
    have hreg2 : (regPhase tm g g1 lvs).idx ((regPhase tm g g1 lvs).stateOf l') = l' := by
      apply hE2.idx_stateOf l' (H.hlvs l' hl').1
      rw [regPhase_nStates]
      have := (H.hlvs l' hl').2
      rw [← H.hns1] at this
      omega
    rw [← hreg2, hst, hreg1]
  rw [hnbO, hVO]
  show (applyWW (lvPhase tm net g g1 lvs) _).W _ _ = _
  apply applyWW_uniform
  · refine ⟨((lvPhase tm net g g1 lvs).neighbors l a, tm.rev a,
      qMax ((List.finRange k).map fun b => (lvPhase tm net g g1 lvs).V
        ((lvPhase tm net g g1 lvs).neighbors l b))), ?_, rfl, rfl⟩
    exact List.mem_flatMap.mpr ⟨l, hl,
      List.mem_map.mpr ⟨a, List.mem_finRange a, rfl⟩⟩
  · intro w hw h1 h2
    rcases List.mem_flatMap.mp hw with ⟨l', hl', hw2⟩
    rcases List.mem_map.mp hw2 with ⟨b, -, hpe⟩
    subst hpe
    dsimp only at h1 h2 ⊢
    have := hinj l' hl' b h1 h2
    rw [this]

/-! ### Lifting the phase lemmas to `expand_leaves` -/

theorem expandLeaves_eq_none [DecidableEq S] [NeZero k] (tm : TransModel S k)
    (net : S → (Fin k → ℚ) × ℚ) (g : MState S k) (lvs : List ℕ)
    (hscan : (subList tm g lvs).findIdx? (fun s => tm.isSolved s) = none) :
    expandLeaves tm net g lvs = (expandBody tm net g g lvs, none) := by
  unfold expandLeaves
  rw [hscan]

theorem expandLeaves_eq_some [DecidableEq S] [NeZero k] (tm : TransModel S k)
    (net : S → (Fin k → ℚ) × ℚ) (g : MState S k) (lvs : List ℕ) (i : ℕ)
    (hscan : (subList tm g lvs).findIdx? (fun s => tm.isSolved s) = some i) :
    expandLeaves tm net g lvs
      = (expandBody tm net g (updateNeighborsB tm g (lvs.getD (i / k) 0)) lvs,
          some (i / k, ⟨i % k, Nat.mod_lt i (NeZero.pos k)⟩)) := by
  unfold expandLeaves
  rw [hscan]

theorem subList_getElem [NeZero k] (tm : TransModel S k) (g : MState S k)
    (lvs : List ℕ) (i : ℕ) (hi : i < (subList tm g lvs).length) :
    (subList tm g lvs).get ⟨i, hi⟩
      = tm.rotate (g.stateOf (lvs.getD (i / k) 0))
          ⟨i % k, Nat.mod_lt i (NeZero.pos k)⟩ := by
  simp [subList, tripList]

/-- A solution found by the scan: the reported pair indexes a leaf of
the batch, and the corresponding successor is indeed solved. -/
theorem expandLeaves_solves [DecidableEq S] [NeZero k] (tm : TransModel S k)
    (g : MState S k) (lvs : List ℕ) (i : ℕ)
    (hscan : (subList tm g lvs).findIdx? (fun s => tm.isSolved s) = some i) :
    i / k < lvs.length ∧
    tm.isSolved (tm.rotate (g.stateOf (lvs.getD (i / k) 0))
      ⟨i % k, Nat.mod_lt i (NeZero.pos k)⟩) = true := by
  rcases (List.findIdx?_eq_some_iff_getElem).mp hscan with ⟨hlt, hp, -⟩
  have hlen : i < lvs.length * k := by
    rw [subList_length] at hlt
    exact hlt
  constructor
  · exact Nat.div_lt_of_lt_mul (by rw [Nat.mul_comm] at hlen; exact hlen)
  · have := subList_getElem tm g lvs i hlt
    rw [← this]
    simpa using hp

/-- Membership form of the batch-handle hypothesis, recovered from the
positional correspondence invariant of the search loop. -/
theorem hlvs_of_corr {g : MState S k} {lvs : List ℕ}
    (hcorr : ∀ j, j < lvs.length → 1 ≤ lvs.getD j 0 ∧ lvs.getD j 0 ≤ g.nStates) :
    ∀ l ∈ lvs, 1 ≤ l ∧ l ≤ g.nStates := by
  intro l hl
  rcases List.getElem_of_mem hl with ⟨j, hj, hget⟩
  have := hcorr j hj
  rw [List.getD_eq_getElem?_getD, List.getElem?_eq_getElem hj, hget] at this
  exact this

/-- Bundle of preserved facts for a full `expand_leaves` call. -/
theorem expandLeaves_inv [DecidableEq S] [NeZero k] (tm : TransModel S k)
    (net : S → (Fin k → ℚ) × ℚ) (g : MState S k) (lvs : List ℕ)
    (hL : tm.Lawful) (hE : EInv tm g)
    (hlvs : ∀ l ∈ lvs, 1 ≤ l ∧ l ≤ g.nStates) :
    EInv tm (expandLeaves tm net g lvs).1 ∧
    g.nStates ≤ (expandLeaves tm net g lvs).1.nStates ∧
    (∀ h : ℕ, h ≤ g.nStates → (expandLeaves tm net g lvs).1.stateOf h = g.stateOf h) ∧
    (VOk net g → VOk net (expandLeaves tm net g lvs).1) ∧
    ((expandLeaves tm net g lvs).2 = none → LeafOk g →
      LeafOk (expandLeaves tm net g lvs).1) := by
  cases hscan : (subList tm g lvs).findIdx? (fun s => tm.isSolved s) with
  | none =>
    have heq := expandLeaves_eq_none tm net g lvs hscan
    have hph := expandBody_eq_phased tm net g g lvs rfl rfl hlvs
    have H : BodyHyps tm g g lvs := ⟨hL, rfl, rfl, rfl, hE, hlvs⟩
    rw [heq]
    simp only
    rw [hph]
    refine ⟨einv_expandPhased tm net g g lvs H,
      expandPhased_nStates_ge tm net g g lvs rfl,
      fun h hh => expandPhased_stateOf_low tm net g g lvs rfl rfl h hh,
      fun hV => expandPhased_vok tm net g g lvs hV,
      fun _ hLO => expandPhased_leafok tm net g g lvs H hLO⟩
  | some i =>
    have heq := expandLeaves_eq_some tm net g lvs i hscan
    set g1 := updateNeighborsB tm g (lvs.getD (i / k) 0) with hg1
    obtain ⟨u1, u2, u3, u4, -, -⟩ := updateNeighborsB_frame tm g (lvs.getD (i / k) 0)
    have hl0 : lvs.getD (i / k) 0 ∈ lvs :=
      getD_mem_of_lt lvs (i / k) 0 (expandLeaves_solves tm g lvs i hscan).1
    have hE1 : EInv tm g1 :=
      updateNeighborsB_einv tm g _ hL hE (hlvs _ hl0)
    have H : BodyHyps tm g g1 lvs := ⟨hL, u3, u2, u1, hE1, hlvs⟩
    have hph := expandBody_eq_phased tm net g g1 lvs u2 u1 hlvs
    rw [heq]
    simp only
    rw [hph]
    refine ⟨einv_expandPhased tm net g g1 lvs H,
      expandPhased_nStates_ge tm net g g1 lvs u1,
      fun h hh => expandPhased_stateOf_low tm net g g1 lvs u2 u1 h hh,
      fun hV => expandPhased_vok tm net g g1 lvs ?_,
      fun hnone _ => absurd hnone (by simp)⟩
    intro h h1 h2
    rw [u4, u2, u1] at *
    exact hV h h1 (by rw [← u1]; exact h2)

/-! ### Soundness of the traversal and of the worker round -/

theorem bumpNL_frame (g : MState S k) (h : ℕ) (a : Fin k) (nu : ℚ) :
    (bumpNL g h a nu).nStates = g.nStates ∧
    (bumpNL g h a nu).stateOf = g.stateOf ∧
    (bumpNL g h a nu).idx = g.idx ∧
    (bumpNL g h a nu).neighbors = g.neighbors ∧
    (bumpNL g h a nu).leaves = g.leaves ∧
    (bumpNL g h a nu).V = g.V :=
  ⟨rfl, rfl, rfl, rfl, rfl, rfl⟩

/-- `find_leaf` only mutates `N` and `L`; the leaf it returns is a
registered handle, and applying its returned path from any state that
reaches the start node reaches the leaf's state — the path follows real
edges of the graph. -/
theorem findLeafGo_sound [NeZero k] (tm : TransModel S k) (c nu : ℚ)
    (rng : ℕ → Fin k) :
    ∀ (fuel : ℕ) (g : MState S k) (cur : ℕ) (path : List (Fin k)) (t : ℕ),
      EInv tm g → LeafOk g → 1 ≤ cur → cur ≤ g.nStates →
      ((findLeafGo c nu g cur path rng t fuel).2.2.1.nStates = g.nStates ∧
        (findLeafGo c nu g cur path rng t fuel).2.2.1.stateOf = g.stateOf ∧
        (findLeafGo c nu g cur path rng t fuel).2.2.1.idx = g.idx ∧
        (findLeafGo c nu g cur path rng t fuel).2.2.1.neighbors = g.neighbors ∧
        (findLeafGo c nu g cur path rng t fuel).2.2.1.leaves = g.leaves ∧
        (findLeafGo c nu g cur path rng t fuel).2.2.1.V = g.V) ∧
      (1 ≤ (findLeafGo c nu g cur path rng t fuel).2.1 ∧
        (findLeafGo c nu g cur path rng t fuel).2.1 ≤ g.nStates) ∧
      (∀ root : S, applyPath tm root path = g.stateOf cur →
        applyPath tm root (findLeafGo c nu g cur path rng t fuel).1
          = g.stateOf (findLeafGo c nu g cur path rng t fuel).2.1) := by
  intro fuel
  induction fuel with
  | zero =>
    intro g cur path t _ _ h1 h2
    exact ⟨⟨rfl, rfl, rfl, rfl, rfl, rfl⟩, ⟨h1, h2⟩, fun root hr => hr⟩
  | succ n ih =>
    intro g cur path t hE hLO h1 h2
    by_cases hleaf : g.leaves cur
    · rw [findLeafGo, if_pos hleaf]
      exact ⟨⟨rfl, rfl, rfl, rfl, rfl, rfl⟩, ⟨h1, h2⟩, fun root hr => hr⟩
    · rw [findLeafGo, if_neg hleaf]
      simp only
      have hleaf' : g.leaves cur = false := by
        cases hcl : g.leaves cur
        · rfl
        · exact absurd hcl hleaf
      set sel : Fin k × ℕ :=
        if sqrtLtQ (sumN g cur) epsQ then (rng t, t + 1)
        else (argmaxScore (sumN g cur) (fun b => uctPair c g cur b), t) with hsel
      set g' := bumpNL g cur sel.1 nu with hg'
      have hnz : g.neighbors cur sel.1 ≠ 0 := hLO cur sel.1 hleaf'
      have hnb : g'.neighbors cur sel.1 = g.neighbors cur sel.1 := rfl
      have hE' : EInv tm g' := einv_of_eq tm g g' rfl rfl rfl rfl hE
      have hLO' : LeafOk g' := fun h a hf => hLO h a hf
      have htgt := hE.nb_tgt cur sel.1 hnz
      have hstep := ih g' (g'.neighbors cur sel.1) (path ++ [sel.1]) sel.2 hE' hLO'
        (by rw [hnb]; exact htgt.1) (by rw [hnb]; exact htgt.2)
      refine ⟨hstep.1, hstep.2.1, ?_⟩
      intro root hr
      apply hstep.2.2 root
      rw [applyPath_append, hr, hnb]
      exact (hE.nb_model cur sel.1 hnz).symm

/-- The worker round preserves everything but `N`/`L`, returns `workers`
paths and leaves, and every returned pair satisfies the path
correspondence from the root's stored state. -/
theorem collectLeaves_sound [NeZero k] (tm : TransModel S k) (c nu : ℚ)
    (rng : ℕ → Fin k) (flFuel : ℕ) :
    ∀ (w : ℕ) (g : MState S k) (t : ℕ),
      EInv tm g → LeafOk g →
      ((collectLeaves c nu g rng t flFuel w).2.2.1.nStates = g.nStates ∧
        (collectLeaves c nu g rng t flFuel w).2.2.1.stateOf = g.stateOf ∧
        (collectLeaves c nu g rng t flFuel w).2.2.1.idx = g.idx ∧
        (collectLeaves c nu g rng t flFuel w).2.2.1.neighbors = g.neighbors ∧
        (collectLeaves c nu g rng t flFuel w).2.2.1.leaves = g.leaves ∧
        (collectLeaves c nu g rng t flFuel w).2.2.1.V = g.V) ∧
      (collectLeaves c nu g rng t flFuel w).1.length = w ∧
      (collectLeaves c nu g rng t flFuel w).2.1.length = w ∧
      (∀ j : ℕ, j < w →
        (1 ≤ (collectLeaves c nu g rng t flFuel w).2.1.getD j 0 ∧
          (collectLeaves c nu g rng t flFuel w).2.1.getD j 0 ≤ g.nStates) ∧
        applyPath tm (g.stateOf 1) ((collectLeaves c nu g rng t flFuel w).1.getD j [])
          = g.stateOf ((collectLeaves c nu g rng t flFuel w).2.1.getD j 0)) := by
  intro w
  induction w with
  | zero =>
    intro g t hE hLO
    exact ⟨⟨rfl, rfl, rfl, rfl, rfl, rfl⟩, rfl, rfl, fun j hj => absurd hj (by omega)⟩
  | succ n ih =>
    intro g t hE hLO
    rw [collectLeaves]
    simp only
    have hfl := findLeafGo_sound tm c nu rng flFuel g 1 [] t hE hLO
      (le_refl 1) hE.root_pos
    obtain ⟨⟨f1, f2, f3, f4, f5, f6⟩, ⟨hb1, hb2⟩, hpath⟩ := hfl
    set r := findLeafGo c nu g 1 [] rng t flFuel with hr
    have hE2 : EInv tm r.2.2.1 := einv_of_eq tm g _ f1 f2 f3 f4 hE
    have hLO2 : LeafOk r.2.2.1 := by
      intro h a hf
      rw [f4]
      rw [f5] at hf
      exact hLO h a hf
    have hrec := ih r.2.2.1 r.2.2.2 hE2 hLO2
    obtain ⟨⟨c1, c2, c3, c4, c5, c6⟩, hl1, hl2, hcorr⟩ := hrec
    refine ⟨⟨by rw [c1, f1], by rw [c2, f2], by rw [c3, f3], by rw [c4, f4],
      by rw [c5, f5], by rw [c6, f6]⟩, by simp [hl1], by simp [hl2], ?_⟩
    intro j hj
    cases j with
    | zero =>
      simp only [List.getD_cons_zero]
      exact ⟨⟨hb1, hb2⟩, hpath (g.stateOf 1) rfl⟩
    | succ m =>
      simp only [List.getD_cons_succ]
      have := hcorr m (by omega)
      rw [f1, f2] at this
      exact this

/-! ### Soundness of the search loop (C1) -/

theorem einv_init [DecidableEq S] (tm : TransModel S k) (root : S) :
    EInv tm ((initMState root : MState S k)) := by
  refine ⟨le_refl 1, ?_, ?_, ?_, ?_, ?_, ?_⟩
  · intro h h1 h2
    have hn : ((initMState root : MState S k)).nStates = 1 := rfl
    rw [hn] at h2
    have : h = 1 := by omega
    subst this
    simp [initMState]
  · intro s hs
    simp only [initMState] at hs ⊢
    by_cases hr : s = root
    · subst hr
      simp
    · rw [if_neg hr] at hs
      exact absurd rfl hs
  · intro h a hnz
    exact absurd rfl hnz
  · intro h a hnz
    exact absurd rfl hnz
  · intro h a hnz
    exact absurd rfl hnz
  · intro h a hnz
    exact absurd rfl hnz

theorem leafok_init [DecidableEq S] (root : S) :
    LeafOk ((initMState root : MState S k)) := by
  intro h a hf
  exact absurd hf (by simp [initMState])

theorem setPV_frame (g : MState S k) (h : ℕ) (p : Fin k → ℚ) (v : ℚ) :
    (setPV g h p v).nStates = g.nStates ∧
    (setPV g h p v).stateOf = g.stateOf ∧
    (setPV g h p v).idx = g.idx ∧
    (setPV g h p v).neighbors = g.neighbors ∧
    (setPV g h p v).leaves = g.leaves :=
  ⟨rfl, rfl, rfl, rfl, rfl⟩

/-- A drained `solved = true` exit of the `MCTS.search` loop yields an
action queue that really solves the root state, provided the loop
invariants hold on entry. -/
theorem mctsLoop_solves [DecidableEq S] [NeZero k] (tm : TransModel S k)
    (net : S → (Fin k → ℚ) × ℚ) (c nu : ℚ) (workers maxStates : ℕ)
    (rng : ℕ → Fin k) (flFuel : ℕ) (hL : tm.Lawful) (root : S) :
    ∀ (fuel : ℕ) (g : MState S k) (paths : List (List (Fin k)))
      (lvs : List ℕ) (t : ℕ),
      EInv tm g → LeafOk g → g.stateOf 1 = root →
      (∀ j : ℕ, j < lvs.length →
        (1 ≤ lvs.getD j 0 ∧ lvs.getD j 0 ≤ g.nStates) ∧
        applyPath tm root (paths.getD j []) = g.stateOf (lvs.getD j 0)) →
      (mctsLoop tm net c nu workers maxStates rng flFuel g paths lvs t fuel).solved = true →
      tm.isSolved (applyPath tm root
        (mctsLoop tm net c nu workers maxStates rng flFuel g paths lvs t fuel).queue) = true := by
  intro fuel
  induction fuel with
  | zero =>
    intro g paths lvs t _ _ _ _ hres
    exact absurd hres (by simp [mctsLoop])
  | succ n ih =>
    intro g paths lvs t hE hLO hroot hcorr hres
    by_cases hsz : g.nStates < maxStates
    · rw [mctsLoop] at hres ⊢
      rw [if_pos hsz] at hres ⊢
      cases hexp : (expandLeaves tm net g lvs).2 with
      | some pa =>
        simp only [hexp]
        rcases (by
          cases hscan : (subList tm g lvs).findIdx? (fun s => tm.isSolved s) with
          | none =>
            rw [expandLeaves_eq_none tm net g lvs hscan] at hexp
            exact absurd hexp (by simp)
          | some i =>
            rw [expandLeaves_eq_some tm net g lvs i hscan] at hexp
            exact ⟨i, rfl, (Option.some.inj hexp).symm⟩ :
          ∃ i : ℕ, (subList tm g lvs).findIdx? (fun s => tm.isSolved s) = some i ∧
            pa = (i / k, ⟨i % k, Nat.mod_lt i (NeZero.pos k)⟩)) with ⟨i, hscan, hpa⟩
        obtain ⟨hik, hsolved⟩ := expandLeaves_solves tm g lvs i hscan
        subst hpa
        rw [applyPath_append]
        have hc := hcorr (i / k) hik
        rw [hc.2]
        exact hsolved
      | none =>
        simp only [hexp] at hres ⊢
        have hlvs : ∀ l ∈ lvs, 1 ≤ l ∧ l ≤ g.nStates := hlvs_of_corr fun j hj => (hcorr j hj).1
        obtain ⟨hE', hns', hst', -, hLO'⟩ := expandLeaves_inv tm net g lvs hL hE hlvs
        have hLO2 := hLO' hexp hLO
        have hroot' : (expandLeaves tm net g lvs).1.stateOf 1 = root := by
          rw [hst' 1 hE.root_pos, hroot]
        obtain ⟨⟨c1, c2, c3, c4, c5, c6⟩, hl1, hl2, hcorr'⟩ :=
          collectLeaves_sound tm c nu rng flFuel workers
            (expandLeaves tm net g lvs).1 t hE' hLO2
        refine ih _ _ _ _ (einv_of_eq tm _ _ c1 c2 c3 c4 hE')
          (by intro h a hf; rw [c4]; rw [c5] at hf; exact hLO2 h a hf)
          (by rw [c2]; exact hroot') ?_ hres
        intro j hj
        rw [hl2] at hj
        refine ⟨⟨(hcorr' j hj).1.1, by rw [c1]; exact (hcorr' j hj).1.2⟩, ?_⟩
        have h2 := (hcorr' j hj).2
        rw [hroot'] at h2
        rw [c2]
        exact h2
    · rw [mctsLoop] at hres
      rw [if_neg hsz] at hres
      exact absurd hres (by simp)

/-- C1: when `MCTS.search` returns `True` on a root that is not already
solved, the action queue it leaves behind — the traversal path of the
solving leaf plus the solving action — drives the root to a solved
state through the transition model. -/
theorem C1_mcts_search_queue_solves [DecidableEq S] [NeZero k]
    (tm : TransModel S k) (net : S → (Fin k → ℚ) × ℚ) (c nu : ℚ)
    (workers : ℕ) (root : S) (rng : ℕ → Fin k) (flFuel maxStates fuel : ℕ)
    (hL : tm.Lawful) (hroot : tm.isSolved root = false)
    (hres : (mctsSearch tm net c nu workers root rng flFuel maxStates fuel).solved = true) :
    tm.isSolved (applyPath tm root
      (mctsSearch tm net c nu workers root rng flFuel maxStates fuel).queue) = true := by
  unfold mctsSearch at hres ⊢
  rw [if_neg (by rw [hroot]; exact Bool.false_ne_true)] at hres ⊢
  set g1 := setPV ((initMState root : MState S k)) 1 (net root).1 (net root).2 with hg1
  have hE1 : EInv tm g1 :=
    einv_of_eq tm (initMState root) g1 rfl rfl rfl rfl (einv_init tm root)
  have hLO1 : LeafOk g1 := by
    intro h a hf
    exact absurd hf (by simp [hg1, setPV, initMState])
  have hroot1 : g1.stateOf 1 = root := rfl
  apply mctsLoop_solves tm net c nu workers maxStates rng flFuel hL root fuel g1
    [[]] [1] 0 hE1 hLO1 hroot1 ?_ hres
  intro j hj
  simp only [List.length_singleton] at hj
  have hj0 : j = 0 := by omega
  subst hj0
  simp [applyPath, hg1, setPV, initMState]

/-- C4: bidirectional edge consistency is maintained by every
expansion: in the graph left by `expand_leaves`, whenever
`neighbors[h][a] = h2` with `h2` non-sentinel, the reverse slot
`neighbors[h2][rev a]` holds `h`. -/
theorem C4_expansion_bidirectional [DecidableEq S] [NeZero k]
    (tm : TransModel S k) (net : S → (Fin k → ℚ) × ℚ) (g : MState S k)
    (lvs : List ℕ) (hL : tm.Lawful) (hE : EInv tm g)
    (hlvs : ∀ l ∈ lvs, 1 ≤ l ∧ l ≤ g.nStates) (h h2 : ℕ) (a : Fin k)
    (hn : (expandLeaves tm net g lvs).1.neighbors h a = h2) (hnz : h2 ≠ 0) :
    (expandLeaves tm net g lvs).1.neighbors h2 (tm.rev a) = h := by
  subst hn
  exact ((expandLeaves_inv tm net g lvs hL hE hlvs).1).nb_bidir h a hnz

/-- C6: after `expand_leaves` processes a leaf `l`, the reverse edge of
every neighbor of `l` carries in `W` the maximum of the value estimates
over all of `l`'s neighbors — a max over siblings, not a running
average. -/
theorem C6_backup_value_max [DecidableEq S] [NeZero k]
    (tm : TransModel S k) (net : S → (Fin k → ℚ) × ℚ) (g : MState S k)
    (lvs : List ℕ) (hL : tm.Lawful) (hE : EInv tm g)
    (hlvs : ∀ l ∈ lvs, 1 ≤ l ∧ l ≤ g.nStates) (l : ℕ) (hl : l ∈ lvs) (a : Fin k) :
    (expandLeaves tm net g lvs).1.W
        ((expandLeaves tm net g lvs).1.neighbors l a) (tm.rev a)
      = qMax ((List.finRange k).map fun b =>
          (expandLeaves tm net g lvs).1.V
            ((expandLeaves tm net g lvs).1.neighbors l b)) := by
  cases hscan : (subList tm g lvs).findIdx? (fun s => tm.isSolved s) with
  | none =>
    rw [expandLeaves_eq_none tm net g lvs hscan]
    simp only
    rw [expandBody_eq_phased tm net g g lvs rfl rfl hlvs]
    exact expandPhased_W tm net g g lvs ⟨hL, rfl, rfl, rfl, hE, hlvs⟩ l hl a
  | some i =>
    rw [expandLeaves_eq_some tm net g lvs i hscan]
    simp only
    obtain ⟨u1, u2, u3, -, -, -⟩ := updateNeighborsB_frame tm g (lvs.getD (i / k) 0)
    have hl0 : lvs.getD (i / k) 0 ∈ lvs :=
      getD_mem_of_lt lvs (i / k) 0 (expandLeaves_solves tm g lvs i hscan).1
    have hE1 : EInv tm (updateNeighborsB tm g (lvs.getD (i / k) 0)) :=
      updateNeighborsB_einv tm g _ hL hE (hlvs _ hl0)
    rw [expandBody_eq_phased tm net g _ lvs u2 u1 hlvs]
    exact expandPhased_W tm net g _ lvs ⟨hL, u3, u2, u1, hE1, hlvs⟩ l hl a

/-- C3 amended: only one direction of the leaf-flag invariant holds —
after an expansion round that found no solution, a node whose leaf flag
is false has every neighbor slot non-sentinel (the converse fails, see
the counterexample). -/
theorem C3_leaf_flag_wired [DecidableEq S] [NeZero k]
    (tm : TransModel S k) (net : S → (Fin k → ℚ) × ℚ) (g : MState S k)
    (lvs : List ℕ) (hL : tm.Lawful) (hE : EInv tm g)
    (hlvs : ∀ l ∈ lvs, 1 ≤ l ∧ l ≤ g.nStates)
    (hnone : (expandLeaves tm net g lvs).2 = none) (hLO : LeafOk g)
    (h : ℕ) (a : Fin k) (hf : (expandLeaves tm net g lvs).1.leaves h = false) :
    (expandLeaves tm net g lvs).1.neighbors h a ≠ 0 :=
  (expandLeaves_inv tm net g lvs hL hE hlvs).2.2.2.2 hnone hLO h a hf

/-- C2 amended: when the scan over the generated successors finds a
solved one at flat index `i`, `expand_leaves` records the pair
`(i / k, i % k)` — whose action really produces a solved successor of
leaf `i / k` — wires the solving leaf's edges, and returns that pair;
but it does not short-circuit: the expansion body still runs on the
whole batch, registering and evaluating the remaining successors. -/
theorem C2_solution_detection [DecidableEq S] [NeZero k]
    (tm : TransModel S k) (net : S → (Fin k → ℚ) × ℚ) (g : MState S k)
    (lvs : List ℕ) (i : ℕ)
    (hscan : (subList tm g lvs).findIdx? (fun s => tm.isSolved s) = some i) :
    expandLeaves tm net g lvs
      = (expandBody tm net g (updateNeighborsB tm g (lvs.getD (i / k) 0)) lvs,
          some (i / k, ⟨i % k, Nat.mod_lt i (NeZero.pos k)⟩)) ∧
    i / k < lvs.length ∧
    tm.isSolved (tm.rotate (g.stateOf (lvs.getD (i / k) 0))
      ⟨i % k, Nat.mod_lt i (NeZero.pos k)⟩) = true :=
  ⟨expandLeaves_eq_some tm net g lvs i hscan, expandLeaves_solves tm g lvs i hscan⟩

/-! ### The traversal's action choice (C7) -/

theorem sqrtLtQ_epsQ_iff (n : ℕ) : sqrtLtQ n epsQ = true ↔ n = 0 := by
  rw [sqrtLtQ, epsQ_eq]
  simp only [Bool.and_eq_true, decide_eq_true_eq]
  constructor
  · rintro ⟨-, hlt⟩
    by_contra hn
    have h1 : (1 : ℚ) ≤ (n : ℚ) := by
      exact_mod_cast Nat.one_le_iff_ne_zero.mpr hn
    have : ((1 : ℚ) / 2 ^ 52) ^ 2 < 1 := by norm_num
    linarith
  · rintro rfl
    norm_num

/-- `scoreLE` decides exactly the comparison of the two real UCT
scores `p.1 * sqrt n + p.2` and `q.1 * sqrt n + q.2`. -/
theorem scoreLE_correct (n : ℕ) (p q : ℚ × ℚ) :
    scoreLE n p q = true ↔
      (p.1 : ℝ) * Real.sqrt n + (p.2 : ℝ)
        ≤ (q.1 : ℝ) * Real.sqrt n + (q.2 : ℝ) := by
  have hs : (0 : ℝ) ≤ Real.sqrt n := Real.sqrt_nonneg _
  have hs2 : Real.sqrt n ^ 2 = (n : ℝ) := Real.sq_sqrt (by positivity)
  rw [scoreLE]
  set e : ℚ := p.1 - q.1 with he
  set f : ℚ := q.2 - p.2 with hf
  have hgoal : ((p.1 : ℝ) * Real.sqrt n + (p.2 : ℝ)
        ≤ (q.1 : ℝ) * Real.sqrt n + (q.2 : ℝ))
      ↔ (e : ℝ) * Real.sqrt n ≤ (f : ℝ) := by
    rw [he, hf]
    push_cast
    constructor <;> intro h <;> nlinarith [h]
  rw [hgoal]
  by_cases hε : 0 ≤ e
  · rw [if_pos hε]
    simp only [Bool.and_eq_true, decide_eq_true_eq]
    have hε' : (0 : ℝ) ≤ (e : ℝ) := by exact_mod_cast hε
    constructor
    · rintro ⟨hf0, hsq⟩
      have hf0' : (0 : ℝ) ≤ (f : ℝ) := by exact_mod_cast hf0
      have hsq' : (e : ℝ) ^ 2 * (n : ℝ) ≤ (f : ℝ) ^ 2 := by exact_mod_cast hsq
      nlinarith [mul_nonneg hε' hs, sq_nonneg ((e : ℝ) * Real.sqrt n - (f : ℝ)),
        sq_nonneg ((e : ℝ) * Real.sqrt n + (f : ℝ))]
    · intro h
      have hf0' : (0 : ℝ) ≤ (f : ℝ) := le_trans (mul_nonneg hε' hs) h
      have hsq' : (e : ℝ) ^ 2 * (n : ℝ) ≤ (f : ℝ) ^ 2 := by
        nlinarith [mul_nonneg hε' hs]
      exact ⟨by exact_mod_cast hf0', by exact_mod_cast hsq'⟩
  · rw [if_neg hε]
    simp only [Bool.or_eq_true, decide_eq_true_eq]
    push_neg at hε
    have hε' : (e : ℝ) < 0 := by exact_mod_cast hε
    constructor
    · rintro (hf0 | hsq)
      · have hf0' : (0 : ℝ) ≤ (f : ℝ) := by exact_mod_cast hf0
        have : (e : ℝ) * Real.sqrt n ≤ 0 :=
          mul_nonpos_of_nonpos_of_nonneg (le_of_lt hε') hs
        linarith
      · have hsq' : (f : ℝ) ^ 2 ≤ (e : ℝ) ^ 2 * (n : ℝ) := by exact_mod_cast hsq
        by_cases hf0 : (0 : ℝ) ≤ (f : ℝ)
        · have : (e : ℝ) * Real.sqrt n ≤ 0 :=
            mul_nonpos_of_nonpos_of_nonneg (le_of_lt hε') hs
          linarith
        · push_neg at hf0
          nlinarith [mul_nonneg (le_of_lt (neg_pos.mpr hε')) hs,
            sq_nonneg ((e : ℝ) * Real.sqrt n - (f : ℝ)),
            sq_nonneg ((e : ℝ) * Real.sqrt n + (f : ℝ))]
    · intro h
      by_cases hf0 : 0 ≤ f
      · exact Or.inl hf0
      · push_neg at hf0
        have hf0' : (f : ℝ) < 0 := by exact_mod_cast hf0
        refine Or.inr ?_
        have : (f : ℝ) ^ 2 ≤ (e : ℝ) ^ 2 * (n : ℝ) := by
          nlinarith [mul_nonneg (le_of_lt (neg_pos.mpr hε')) hs]
        exact_mod_cast this

theorem foldl_argmax_ge (n : ℕ) (f : Fin k → ℚ × ℚ) :
    ∀ (l : List (Fin k)) (b0 : Fin k),
      ((f b0).1 : ℝ) * Real.sqrt n + ((f b0).2 : ℝ)
          ≤ ((f (l.foldl (fun best i => if scoreLE n (f i) (f best) then best else i) b0)).1 : ℝ)
              * Real.sqrt n
            + ((f (l.foldl (fun best i => if scoreLE n (f i) (f best) then best else i) b0)).2 : ℝ) ∧
      ∀ x ∈ l,
        ((f x).1 : ℝ) * Real.sqrt n + ((f x).2 : ℝ)
          ≤ ((f (l.foldl (fun best i => if scoreLE n (f i) (f best) then best else i) b0)).1 : ℝ)
              * Real.sqrt n
            + ((f (l.foldl (fun best i => if scoreLE n (f i) (f best) then best else i) b0)).2 : ℝ) := by
  intro l
  induction l with
  | nil =>
    intro b0
    exact ⟨le_refl _, by simp⟩
  | cons i l ih =>
    intro b0
    simp only [List.foldl_cons]
    by_cases hle : scoreLE n (f i) (f b0) = true
    · rw [if_pos hle]
      refine ⟨(ih b0).1, ?_⟩
      intro x hx
      rcases List.mem_cons.mp hx with rfl | hx
      · exact le_trans ((scoreLE_correct n (f x) (f b0)).mp hle) (ih b0).1
      · exact (ih b0).2 x hx
    · rw [if_neg hle]
      have hlt : ((f b0).1 : ℝ) * Real.sqrt n + ((f b0).2 : ℝ)
          ≤ ((f i).1 : ℝ) * Real.sqrt n + ((f i).2 : ℝ) := by
        have h3 := (scoreLE_correct n (f i) (f b0))
        have : ¬(((f i).1 : ℝ) * Real.sqrt n + ((f i).2 : ℝ)
            ≤ ((f b0).1 : ℝ) * Real.sqrt n + ((f b0).2 : ℝ)) := fun hc =>
          hle (h3.mpr hc)
        linarith [lt_of_not_le this]
      refine ⟨le_trans hlt (ih i).1, ?_⟩
      intro x hx
      rcases List.mem_cons.mp hx with rfl | hx
      · exact (ih x).1
      · exact (ih i).2 x hx

/-- `np.argmax` over the exact score representations picks an action
whose real UCT score is maximal. -/
theorem argmaxScore_le [NeZero k] (n : ℕ) (f : Fin k → ℚ × ℚ) (b : Fin k) :
    ((f b).1 : ℝ) * Real.sqrt n + ((f b).2 : ℝ)
      ≤ ((f (argmaxScore n f)).1 : ℝ) * Real.sqrt n + ((f (argmaxScore n f)).2 : ℝ) :=
  (foldl_argmax_ge n f (List.finRange k) ⟨0, NeZero.pos k⟩).2 b (List.mem_finRange b)

/-- C7: at a non-leaf node, one step of `find_leaf` picks an action `a`
— the next draw of the random stream when the node's visit counts sum
to zero (the code's `sqrt(N.sum()) < eps` test), otherwise an action
maximizing the real UCT score
`c * P[b] * sqrt(sum N) / (1 + N[b]) + (W[b] - L[b])` — then increments
`N[cur, a]` by one and the virtual loss `L[cur, a]` by `nu`, appends
`a` to the path and descends along the neighbor edge. -/
theorem C7_uct_step [NeZero k] (c nu : ℚ) (g : MState S k) (cur : ℕ)
    (path : List (Fin k)) (rng : ℕ → Fin k) (t fuel : ℕ)
    (hleaf : g.leaves cur = false) :
    ∃ (a : Fin k) (t' : ℕ),
      findLeafGo c nu g cur path rng t (fuel + 1)
        = findLeafGo c nu (bumpNL g cur a nu)
            ((bumpNL g cur a nu).neighbors cur a) (path ++ [a]) rng t' fuel ∧
      (sumN g cur = 0 → a = rng t ∧ t' = t + 1) ∧
      (sumN g cur ≠ 0 → t' = t ∧ ∀ b : Fin k,
        ((c * g.P cur b / (1 + (g.N cur b : ℚ)) : ℚ) : ℝ) * Real.sqrt (sumN g cur)
            + ((g.W cur b - g.L cur b : ℚ) : ℝ)
          ≤ ((c * g.P cur a / (1 + (g.N cur a : ℚ)) : ℚ) : ℝ) * Real.sqrt (sumN g cur)
            + ((g.W cur a - g.L cur a : ℚ) : ℝ)) ∧
      (bumpNL g cur a nu).N cur a = g.N cur a + 1 ∧
      (bumpNL g cur a nu).L cur a = g.L cur a + nu := by
  by_cases h0 : sumN g cur = 0
  · refine ⟨rng t, t + 1, ?_, fun _ => ⟨rfl, rfl⟩, fun hn => absurd h0 hn, ?_, ?_⟩
    · rw [findLeafGo, if_neg (by rw [hleaf]; exact Bool.false_ne_true)]
      have hcond : sqrtLtQ (sumN g cur) epsQ = true := (sqrtLtQ_epsQ_iff _).mpr h0
      simp only [hcond, if_true]
    · simp [bumpNL]
    · simp [bumpNL]
  · refine ⟨argmaxScore (sumN g cur) (fun b => uctPair c g cur b), t, ?_,
      fun hz => absurd hz h0, fun _ => ⟨rfl, ?_⟩, ?_, ?_⟩
    · rw [findLeafGo, if_neg (by rw [hleaf]; exact Bool.false_ne_true)]
      have hcond : sqrtLtQ (sumN g cur) epsQ = false := by
        rw [← Bool.not_eq_true]
        simp only [sqrtLtQ_epsQ_iff]
        exact h0
      simp only [hcond, Bool.false_eq_true, if_false]
    · intro b
      exact argmaxScore_le (sumN g cur) (fun b => uctPair c g cur b) b
    · simp [bumpNL]
    · simp [bumpNL]

/-! ### C8 — the adaptive feed-forward retry loop -/

/-- Consecutive slices of a given size cover the whole list as soon as
the capacity `b * size` reaches the length. -/
theorem sliceCover {α : Type} :
    ∀ (b : ℕ) (xs : List α) (size : ℕ), xs.length ≤ b * size →
      ((List.range b).map fun i => (xs.drop (i * size)).take size).flatten = xs := by
  intro b
  induction b with
  | zero =>
    intro xs size hlen
    simp only [Nat.zero_mul, Nat.le_zero, List.length_eq_zero] at hlen
    simp [hlen]
  | succ n ih =>
    intro xs size hlen
    have h2 : (n + 1) * size = n * size + size := by ring
    rw [List.range_succ_eq_map]
    simp only [List.map_cons, List.map_map, List.flatten_cons, Nat.zero_mul, List.drop_zero]
    have hmap : (List.range n).map ((fun i => (xs.drop (i * size)).take size) ∘ Nat.succ)
        = (List.range n).map fun i => ((xs.drop size).drop (i * size)).take size := by
      apply List.map_congr_left
      intro i _
      simp only [Function.comp_apply, Nat.succ_mul, List.drop_drop]
      rw [Nat.add_comm (i * size) size, Nat.add_comm size (i * size)]
    rw [hmap, ih (xs.drop size) size (by simp only [List.length_drop]; omega)]
    exact List.take_append_drop size xs

/-- `Train._get_adi_ff_slices` covers the data exactly once: the
concatenation of the slices is the full batch (no data is dropped and
nothing is duplicated). -/
theorem adiSlices_join {α : Type} (xs : List α) (b : ℕ) (hb : 1 ≤ b) :
    (adiSlices xs b).flatten = xs := by
  apply sliceCover
  have hb0 : 0 < b := hb
  have hmod := Nat.div_add_mod xs.length b
  have hlt : xs.length % b < b := Nat.mod_lt _ hb0
  have : b * (xs.length / b + 1) = b * (xs.length / b) + b := by ring
  rw [this]
  omega

/-- If the oracle maps each batch elementwise, a successful slice
evaluation returns the elementwise image of the concatenated slices. -/
theorem evalParts_elementwise {α β : Type} (net : List α → Except NetErr (List β))
    (f : α → β) (hnet : ∀ zs ys, net zs = Except.ok ys → ys = zs.map f) :
    ∀ (ss : List (List α)) (ys : List β),
      evalParts net ss = Except.ok ys → ys = ss.flatten.map f := by
  intro ss
  induction ss with
  | nil =>
    intro ys h
    simp only [evalParts] at h
    cases h
    simp
  | cons s rest ih =>
    intro ys h
    simp only [evalParts] at h
    cases hy : net s with
    | error e => rw [hy] at h; cases h
    | ok y =>
      rw [hy] at h
      cases hz : evalParts net rest with
      | error e => rw [hz] at h; cases h
      | ok z =>
        rw [hz] at h
        cases h
        rw [hnet s y hy, ih z hz]
        simp

/-- A successful exit of the retry loop carries the elementwise image of
the entire input batch, whatever number of doublings happened. -/
theorem adiFF_no_drop {α β : Type} (net : List α → Except NetErr (List β))
    (f : α → β) (xs : List α)
    (hnet : ∀ zs ys, net zs = Except.ok ys → ys = zs.map f) :
    ∀ (fuel b : ℕ), 1 ≤ b → ∀ (ys : List β) (b2 : ℕ),
      adiFF net xs b fuel = some (Except.ok (ys, b2)) → ys = xs.map f := by
  intro fuel
  induction fuel with
  | zero => intro b _ ys b2 h; cases h
  | succ n ih =>
    intro b hb ys b2 h
    simp only [adiFF] at h
    cases he : evalParts net (adiSlices xs b) with
    | ok ws =>
      rw [he] at h
      cases h
      rw [evalParts_elementwise net f hnet _ _ he, adiSlices_join xs b hb]
    | error e =>
      rw [he] at h
      cases e with
      | alloc => exact ih (b * 2) (by omega) ys b2 h
      | other => cases h

/-- C8: when a batched oracle evaluation fails with a resource
exhaustion (`alloc`) error, `ADI_traindata` doubles `adi_ff_batches`
(halving the effective sub-batch size) and retries the whole
evaluation; a non-allocation error is re-raised unmodified; and a
successful exit returns the oracle image of the entire batch — no data
is dropped. -/
theorem C8_adi_ff_retry {α β : Type} (net : List α → Except NetErr (List β))
    (f : α → β) (xs : List α) (b fuel : ℕ)
    (hnet : ∀ zs ys, net zs = Except.ok ys → ys = zs.map f) (hb : 1 ≤ b) :
    (evalParts net (adiSlices xs b) = Except.error NetErr.alloc →
      adiFF net xs b (fuel + 1) = adiFF net xs (b * 2) fuel) ∧
    (evalParts net (adiSlices xs b) = Except.error NetErr.other →
      adiFF net xs b (fuel + 1) = some (Except.error NetErr.other)) ∧
    (∀ (ys : List β) (b2 : ℕ),
      adiFF net xs b (fuel + 1) = some (Except.ok (ys, b2)) → ys = xs.map f) := by
  refine ⟨?_, ?_, ?_⟩
  · intro he
    simp only [adiFF, he]
  · intro he
    simp only [adiFF, he]
  · exact adiFF_no_drop net f xs hnet (fuel + 1) b hb

/-- A concrete elementwise oracle over natural-number batches. -/
def netOkC8 : List ℕ → Except NetErr (List ℕ) :=
  fun zs => Except.ok (zs.map fun x => x + 1)

/-- Witness for C8 at a concrete oracle, batch and fuel. -/
theorem C8_adi_ff_retry_witness :
    (∀ (zs ys : List ℕ), netOkC8 zs = Except.ok ys → ys = zs.map fun x => x + 1) ∧
    1 ≤ 1 ∧
    ((evalParts netOkC8 (adiSlices [1, 2, 3] 1) = Except.error NetErr.alloc →
        adiFF netOkC8 [1, 2, 3] 1 (1 + 1) = adiFF netOkC8 [1, 2, 3] (1 * 2) 1) ∧
      (evalParts netOkC8 (adiSlices [1, 2, 3] 1) = Except.error NetErr.other →
        adiFF netOkC8 [1, 2, 3] 1 (1 + 1) = some (Except.error NetErr.other)) ∧
      (∀ (ys : List ℕ) (b2 : ℕ),
        adiFF netOkC8 [1, 2, 3] 1 (1 + 1) = some (Except.ok (ys, b2)) →
          ys = [1, 2, 3].map fun x => x + 1)) :=
  ⟨fun zs ys h => (Except.ok.inj h).symm, by decide,
    C8_adi_ff_retry netOkC8 (fun x => x + 1) [1, 2, 3] 1 1
      (fun zs ys h => (Except.ok.inj h).symm) (by decide)⟩

/-! ### Concrete transition models used as test fixtures -/

/-- A one-action model on two states that flips between them and never
reports solved. -/
def tmToggle : TransModel (Fin 2) 1 :=
  { rotate := fun s _ => s + 1, isSolved := fun _ => false, rev := fun a => a }

/-- The same flip model, solved exactly at state 0. -/
def tmSolved : TransModel (Fin 2) 1 :=
  { rotate := fun s _ => s + 1, isSolved := fun s => s == 0, rev := fun a => a }

/-- A fixed stub oracle on the two-state model. -/
def netToggle : Fin 2 → (Fin 1 → ℚ) × ℚ := fun s => (fun _ => 1, (s : ℚ) + 1)

/-- A two-action model on the five-element cycle: action 0 steps
forward, action 1 steps back, solved exactly at state 1. -/
def tmCycle5 : TransModel (Fin 5) 2 :=
  { rotate := fun s a => if a = 0 then s + 1 else s - 1,
    isSolved := fun s => s == 1,
    rev := fun a => if a = 0 then 1 else 0 }

/-- A fixed stub oracle on the cycle model whose value at `s` is
`s + 1`. -/
def netCycle5 : Fin 5 → (Fin 2 → ℚ) × ℚ := fun s => (fun _ => 0, (s : ℚ) + 1)

/-! ### C10 — BFS pops its queue without an emptiness check -/

/-- C10: `BFS.search` pops the next state from its FIFO queue without
checking for emptiness, so whenever the queue empties while time
remains the call raises (`none`) instead of returning the normal
not-solved `False`; concretely, on the two-state never-solved model the
search space is exhausted after two pops and the third iteration
raises. -/
theorem C10_bfs_pop_raises :
    (∀ (S : Type) (k : ℕ) (_inst : DecidableEq S) (_inst2 : NeZero k)
      (tm : TransModel S k) (vis : List (S × Option (S × Fin k))) (fuel : ℕ),
        bfsGo tm vis [] (fuel + 1) = none) ∧
    bfsSearch tmToggle 0 10 = none := by
  constructor
  · intro S k _inst _inst2 tm vis fuel
    rfl
  · decide

/-! ### C9 — the action queue after a failed search -/

/-- Helper: the `MCTS.search` loop never touches `action_queue` on the
failure path, so a `False` exit reports the queue as `reset()` left it:
empty. -/
theorem mctsLoop_false_queue [DecidableEq S] [NeZero k] (tm : TransModel S k)
    (net : S → (Fin k → ℚ) × ℚ) (c nu : ℚ) (workers maxStates : ℕ)
    (rng : ℕ → Fin k) (flFuel : ℕ) :
    ∀ (fuel : ℕ) (g : MState S k) (paths : List (List (Fin k))) (lvs : List ℕ) (t : ℕ),
      (mctsLoop tm net c nu workers maxStates rng flFuel g paths lvs t fuel).solved = false →
      (mctsLoop tm net c nu workers maxStates rng flFuel g paths lvs t fuel).queue = [] := by
  intro fuel
  induction fuel with
  | zero => intro g paths lvs t _; rfl
  | succ n ih =>
    intro g paths lvs t hres
    by_cases hsz : g.nStates < maxStates
    · simp only [mctsLoop, hsz, if_pos] at hres ⊢
      cases hexp : (expandLeaves tm net g lvs).2 with
      | some pa => simp only [hexp] at hres; exact absurd hres (by simp)
      | none =>
        simp only [hexp] at hres ⊢
        exact ih _ _ _ _ hres
    · simp only [mctsLoop, hsz, if_neg, if_false]

/-- C9 counterexample: `RandomDFS` (which inherits the base
`Searcher.search` loop) returns `False` on the never-solved two-state
model after its time limit, yet the action queue afterwards holds every
action of the failed walk — it is not empty. -/
theorem C9_counterexample :
    (searcherSearch tmToggle (randomDFSStep tmToggle fun _ => 0) 0 3).1 = false ∧
    (searcherSearch tmToggle (randomDFSStep tmToggle fun _ => 0) 0 3).2 ≠ [] := by
  decide

/-- C9 amended: only `MCTS.search` (and `BFS.search`) leave the exposed
action queue empty after returning `False`; the base `Searcher.search`
loop used by `RandomDFS`/`PolicySearch` keeps the actions of the failed
walk, and `MCTS2.search` stores a best-guess path terminated by `-1`.
The amended theorem proves the MCTS part: a `False` return leaves the
queue empty. -/
theorem C9_mcts_false_queue_empty [DecidableEq S] [NeZero k]
    (tm : TransModel S k) (net : S → (Fin k → ℚ) × ℚ) (c nu : ℚ)
    (workers : ℕ) (root : S) (rng : ℕ → Fin k) (flFuel maxStates fuel : ℕ)
    (hres : (mctsSearch tm net c nu workers root rng flFuel maxStates fuel).solved = false) :
    (mctsSearch tm net c nu workers root rng flFuel maxStates fuel).queue = [] := by
  unfold mctsSearch at hres ⊢
  by_cases hsolved : tm.isSolved root
  · simp [hsolved] at hres
  · simp only [hsolved, Bool.false_eq_true, if_false] at hres ⊢
    exact mctsLoop_false_queue tm net c nu workers maxStates rng flFuel _ _ _ _ _ hres

/-- Witness for C9's amended theorem at a concrete failing run (the
size limit stops the search after one expansion round). -/
theorem C9_mcts_false_queue_empty_witness :
    (mctsSearch tmToggle netToggle 1 0 1 0 (fun _ => 0) 5 2 2).solved = false ∧
    (mctsSearch tmToggle netToggle 1 0 1 0 (fun _ => 0) 5 2 2).queue = [] :=
  ⟨by decide, C9_mcts_false_queue_empty tmToggle netToggle 1 0 1 0 (fun _ => 0) 5 2 2 (by decide)⟩

/-! ### C5 — searching from an already-solved root -/

/-- C5 counterexample: on an already-solved root, `MCTS2.search` does
return `True` immediately with an empty queue, but its state dict is
still empty — the graph holds 0 states, not 1. -/
theorem C5_counterexample :
    tmSolved.isSolved 0 = true ∧
    (mcts2Search tmSolved netToggle 1 0 1 100 false 0 (fun _ => 0) 5 5).map
      (fun r => (r.1, r.2.1, r.2.2.length)) = some (true, ([] : List ℤ), 0) := by
  decide

/-- C5 amended: a solved root makes `search` return `True` immediately
with an empty action queue; the `MCTS` graph then contains exactly the
root (size 1), while the `MCTS2` dict is left empty (size 0). -/
theorem C5_solved_root {S2 : Type} {k2 : ℕ} [DecidableEq S] [NeZero k]
    [DecidableEq S2] [NeZero k2] [Inhabited S2]
    (tm : TransModel S k) (net : S → (Fin k → ℚ) × ℚ) (c nu : ℚ)
    (workers : ℕ) (root : S) (rng : ℕ → Fin k) (flFuel maxStates fuel : ℕ)
    (tm2 : TransModel S2 k2) (net2 : S2 → (Fin k2 → ℚ) × ℚ) (c2 nu2 : ℚ)
    (workers2 maxStates2 : ℕ) (complete : Bool) (root2 : S2)
    (rng2 : ℕ → Fin k2) (flFuel2 fuel2 : ℕ)
    (hroot : tm.isSolved root = true) (hroot2 : tm2.isSolved root2 = true) :
    mctsSearch tm net c nu workers root rng flFuel maxStates fuel
      = ⟨true, [], initMState root⟩ ∧
    (mctsSearch tm net c nu workers root rng flFuel maxStates fuel).graph.nStates = 1 ∧
    mcts2Search tm2 net2 c2 nu2 workers2 maxStates2 complete root2 rng2 flFuel2 fuel2
      = some (true, [], []) := by
  refine ⟨?_, ?_, ?_⟩
  · simp [mctsSearch, hroot]
  · simp [mctsSearch, hroot, initMState]
  · simp [mcts2Search, hroot2]

/-- Witness for C5's amended theorem. -/
theorem C5_solved_root_witness :
    tmSolved.isSolved 0 = true ∧
    (mctsSearch tmSolved netToggle 1 0 1 0 (fun _ => 0) 5 100 5
        = ⟨true, [], initMState 0⟩ ∧
      (mctsSearch tmSolved netToggle 1 0 1 0 (fun _ => 0) 5 100 5).graph.nStates = 1 ∧
      mcts2Search tmSolved netToggle 1 0 1 100 false 0 (fun _ => 0) 5 5
        = some (true, [], [])) :=
  ⟨by decide,
    C5_solved_root tmSolved netToggle 1 0 1 0 (fun _ => 0) 5 100 5
      tmSolved netToggle 1 0 1 100 false 0 (fun _ => 0) 5 5 (by decide) (by decide)⟩

/-- Witness for C1: on the five-cycle model the unsolved root `0` is
solved at the first expansion with queue `[0]`. -/
theorem C1_mcts_search_queue_solves_witness :
    tmCycle5.Lawful ∧
    tmCycle5.isSolved 0 = false ∧
    (mctsSearch tmCycle5 netCycle5 1 0 1 0 (fun _ => 0) 5 100 5).solved = true ∧
    tmCycle5.isSolved (applyPath tmCycle5 0
      (mctsSearch tmCycle5 netCycle5 1 0 1 0 (fun _ => 0) 5 100 5).queue) = true :=
  ⟨⟨by decide, by decide⟩, by decide, by decide,
    C1_mcts_search_queue_solves tmCycle5 netCycle5 1 0 1 0 (fun _ => 0) 5 100 5
      ⟨by decide, by decide⟩ (by decide) (by decide)⟩

/-- Witness for C4: expanding the fresh root of the five-cycle model
wires the forward edge `1 →₀ 2`, and the theorem yields the reverse
edge `2 →₍rev 0₎ 1`. -/
theorem C4_expansion_bidirectional_witness :
    (tmCycle5.Lawful ∧ EInv tmCycle5 (initMState 0) ∧
      (∀ l ∈ [1], 1 ≤ l ∧ l ≤ (initMState 0 : MState (Fin 5) 2).nStates)) ∧
    (expandLeaves tmCycle5 netCycle5 (initMState 0) [1]).1.neighbors 1 0 = 2 ∧
    (expandLeaves tmCycle5 netCycle5 (initMState 0) [1]).1.neighbors 2 (tmCycle5.rev 0) = 1 :=
  ⟨⟨⟨by decide, by decide⟩, einv_init tmCycle5 0, by decide⟩, by decide,
    C4_expansion_bidirectional tmCycle5 netCycle5 (initMState 0) [1]
      ⟨by decide, by decide⟩ (einv_init tmCycle5 0) (by decide) 1 2 0 (by decide) (by decide)⟩

/-- Witness for C6: the expansion of the fresh root of the five-cycle
model, with the reverse edge of the neighbor reached by action `1`. -/
theorem C6_backup_value_max_witness :
    (tmCycle5.Lawful ∧ EInv tmCycle5 (initMState 0) ∧
      (∀ l ∈ [1], 1 ≤ l ∧ l ≤ (initMState 0 : MState (Fin 5) 2).nStates) ∧
      1 ∈ [1] ∧
      (expandLeaves tmCycle5 netCycle5 (initMState 0) [1]).1.neighbors 1 1 = 3) ∧
    (expandLeaves tmCycle5 netCycle5 (initMState 0) [1]).1.W
        ((expandLeaves tmCycle5 netCycle5 (initMState 0) [1]).1.neighbors 1 1)
        (tmCycle5.rev 1)
      = qMax ((List.finRange 2).map fun b =>
          (expandLeaves tmCycle5 netCycle5 (initMState 0) [1]).1.V
            ((expandLeaves tmCycle5 netCycle5 (initMState 0) [1]).1.neighbors 1 b)) :=
  ⟨⟨⟨by decide, by decide⟩, einv_init tmCycle5 0, by decide, by decide, by decide⟩,
    C6_backup_value_max tmCycle5 netCycle5 (initMState 0) [1] ⟨by decide, by decide⟩
      (einv_init tmCycle5 0) (by decide) 1 (by decide) 1⟩

/-- C3 counterexample: after expanding the fresh root of the toggle
model, the newly registered neighbor (handle 2) has its only neighbor
slot wired back to the root, yet its leaf flag is still `true` — the
claimed equivalence between a false leaf flag and fully wired neighbor
slots fails. -/
theorem C3_counterexample :
    ¬(((expandLeaves tmToggle netToggle (initMState 0) [1]).1.leaves 2 = false) ↔
      (∀ a : Fin 1,
        (expandLeaves tmToggle netToggle (initMState 0) [1]).1.neighbors 2 a ≠ 0)) := by
  decide

/-- Witness for C3's amended theorem: the expanded root (handle 1) has
its leaf flag cleared, and the theorem yields that its slot is
wired. -/
theorem C3_leaf_flag_wired_witness :
    (tmToggle.Lawful ∧ EInv tmToggle (initMState 0) ∧
      (∀ l ∈ [1], 1 ≤ l ∧ l ≤ (initMState 0 : MState (Fin 2) 1).nStates) ∧
      (expandLeaves tmToggle netToggle (initMState 0) [1]).2 = none ∧
      LeafOk (initMState 0 : MState (Fin 2) 1) ∧
      (expandLeaves tmToggle netToggle (initMState 0) [1]).1.leaves 1 = false) ∧
    (expandLeaves tmToggle netToggle (initMState 0) [1]).1.neighbors 1 0 ≠ 0 :=
  ⟨⟨⟨by decide, by decide⟩, einv_init tmToggle 0, by decide, by decide,
      leafok_init 0, by decide⟩,
    C3_leaf_flag_wired tmToggle netToggle (initMState 0) [1] ⟨by decide, by decide⟩
      (einv_init tmToggle 0) (by decide) (by decide) (leafok_init 0) 1 0 (by decide)⟩

/-- C2 counterexample: on the five-cycle model the root's successor
under action 0 is solved, and `expand_leaves` does return the pair
`(0, 0)` — but it does not stop there: the other successor of the same
batch (state 4) is still registered, so the graph ends with three
states, not one. -/
theorem C2_counterexample :
    (expandLeaves tmCycle5 netCycle5 (initMState 0) [1]).2 = some (0, 0) ∧
    ¬((expandLeaves tmCycle5 netCycle5 (initMState 0) [1]).1.idx 4 = 0) ∧
    (expandLeaves tmCycle5 netCycle5 (initMState 0) [1]).1.idx 4 = 3 ∧
    (expandLeaves tmCycle5 netCycle5 (initMState 0) [1]).1.nStates = 3 := by
  decide

/-- Witness for C2's amended theorem at the five-cycle root
expansion. -/
theorem C2_solution_detection_witness :
    ((subList tmCycle5 (initMState 0) [1]).findIdx?
        (fun s => tmCycle5.isSolved s) = some 0) ∧
    (expandLeaves tmCycle5 netCycle5 (initMState 0) [1]
        = (expandBody tmCycle5 netCycle5 (initMState 0)
            (updateNeighborsB tmCycle5 (initMState 0) ([1].getD (0 / 2) 0)) [1],
            some (0 / 2, ⟨0 % 2, Nat.mod_lt 0 (NeZero.pos 2)⟩)) ∧
      0 / 2 < [1].length ∧
      tmCycle5.isSolved (tmCycle5.rotate
        ((initMState 0 : MState (Fin 5) 2).stateOf ([1].getD (0 / 2) 0))
        ⟨0 % 2, Nat.mod_lt 0 (NeZero.pos 2)⟩) = true) :=
  ⟨by decide, C2_solution_detection tmCycle5 netCycle5 (initMState 0) [1] 0 (by decide)⟩

/-- The toggle model's graph after expanding the fresh root: its root
handle 1 is no longer a leaf, with no visits yet. -/
def gT1 : MState (Fin 2) 1 := (expandLeaves tmToggle netToggle (initMState 0) [1]).1

/-- Witness for C7: one traversal step from the expanded toggle root,
whose visit counts are still all zero. -/
theorem C7_uct_step_witness :
    gT1.leaves 1 = false ∧
    ∃ (a : Fin 1) (t' : ℕ),
      findLeafGo 1 0 gT1 1 [] (fun _ => 0) 0 (3 + 1)
        = findLeafGo 1 0 (bumpNL gT1 1 a 0)
            ((bumpNL gT1 1 a 0).neighbors 1 a) ([] ++ [a]) (fun _ => 0) t' 3 ∧
      (sumN gT1 1 = 0 → a = (fun _ => (0 : Fin 1)) 0 ∧ t' = 0 + 1) ∧
      (sumN gT1 1 ≠ 0 → t' = 0 ∧ ∀ b : Fin 1,
        ((1 * gT1.P 1 b / (1 + (gT1.N 1 b : ℚ)) : ℚ) : ℝ) * Real.sqrt (sumN gT1 1)
            + ((gT1.W 1 b - gT1.L 1 b : ℚ) : ℝ)
          ≤ ((1 * gT1.P 1 a / (1 + (gT1.N 1 a : ℚ)) : ℚ) : ℝ) * Real.sqrt (sumN gT1 1)
            + ((gT1.W 1 a - gT1.L 1 a : ℚ) : ℝ)) ∧
      (bumpNL gT1 1 a 0).N 1 a = gT1.N 1 a + 1 ∧
      (bumpNL gT1 1 a 0).L 1 a = gT1.L 1 a + 0 :=
  ⟨by decide, C7_uct_step 1 0 gT1 1 [] (fun _ => 0) 0 3 (by decide)⟩

end RLRubiks
